import Mathlib

/-!
# Verification of the `torus_triangulation` builders

Shallow embedding of the `torus_triangulation` Python package
(`builder.py`, `edge_accumulator.py`, `cell_complex.py`, `remove_one.py`,
`translate_point.py`, `cube_filter.py`, `cube_triangulation.py`,
`triangulation_edge_finder.py`).

Modelling conventions:

* A vertex (an integer coordinate tuple) is a `List Int`; a simplex
  (an ordered vertex tuple) is a `List (List Int)`.
* Python dictionaries are association lists (`alookup` / `aupdate`:
  first-match lookup, in-place overwrite of the first matching key,
  append when absent), Python sets are lists with membership-guarded
  insertion (`setAdd`), matching the mutation discipline of the source.
* The mutable builder (`self._sorted_simplices`, `self.simplices`,
  `self.boundary`) is an explicit `BuilderState` threaded through every
  operation.  A Python exception is an `Except Err` result that carries
  the state at the raise point, since `self` keeps all mutations
  performed before an exception propagates.
* `VertexOrderError` carries the two conflicting vertex orders, exactly
  the two tuples interpolated into the Python message; the failing
  `assert` of `add_simplex` is `Err.assertionFailed`.
* Unbounded loops/recursions (the orbit worklist, `identify`,
  `edge_orientations_iter`) take an explicit fuel argument; exhausted
  fuel is `none`, never a program result.
-/

/-- A lattice point, `tuple` of integers in the source. -/
abbrev Vtx : Type := List Int

/-- An ordered vertex tuple, a simplex of the source. -/
abbrev Spx : Type := List Vtx

/-- Python `<=` on integer tuples: lexicographic, a strict prefix is smaller. -/
def vtxLe : Vtx → Vtx → Bool
  | [], _ => true
  | _ :: _, [] => false
  | a :: as_, b :: bs => if a < b then true else if b < a then false else vtxLe as_ bs

/-- Insert a vertex into a `vtxLe`-sorted list, keeping it sorted. -/
def insertVtx (x : Vtx) : List Vtx → List Vtx
  | [] => [x]
  | y :: ys => if vtxLe x y then x :: y :: ys else y :: insertVtx x ys

/-- `tuple(sorted(simplex))` of `_make_simplex`: the canonical key of a simplex. -/
def sortKey (s : Spx) : Spx := s.foldr insertVtx []

/-- First-match association-list lookup, the read of a Python `dict`. -/
def alookup {α β : Type} [DecidableEq α] : List (α × β) → α → Option β
  | [], _ => none
  | (k, v) :: rest, a => if a = k then some v else alookup rest a

/-- Python `dict` assignment: overwrite the first matching key in place,
append a fresh entry when the key is absent. -/
def aupdate {α β : Type} [DecidableEq α] : List (α × β) → α → β → List (α × β)
  | [], a, b => [(a, b)]
  | (k, v) :: rest, a, b => if a = k then (k, b) :: rest else (k, v) :: aupdate rest a b

/-- Python `set.add`: append the element unless it is already a member. -/
def setAdd {α : Type} [DecidableEq α] (l : List α) (x : α) : List α :=
  if x ∈ l then l else l ++ [x]

/-- The mutable fields shared by `Builder` (`builder.py`) and `EdgeBuilder`
(`edge_accumulator.py`), whose `__init__`/`_make_simplex`/`add_simplex`
bodies are textually identical in the source:
`_sorted_simplices` (canonical key → recorded vertex order),
`simplices` (`defaultdict(set)` from vertex count to simplex set) and
`boundary` (simplex → ordered tuple of its codimension-one faces). -/
structure BuilderState where
  sortedSimplices : List (Spx × Spx)
  simplices : List (Nat × List Spx)
  boundary : List (Spx × List Spx)
  deriving DecidableEq

/-- The freshly constructed builder. -/
def emptyBuilder : BuilderState := ⟨[], [], []⟩

/-- The exceptions the modelled code can raise: `VertexOrderError`
(carrying the previously recorded and the newly given vertex orders, the
two tuples named by the Python message) and a failed `assert`. -/
inductive Err : Type where
  | vertexOrder (previous given : Spx)
  | assertionFailed
  deriving DecidableEq

/-- Decidable equality of result values, used by concrete evaluations. -/
instance {e a : Type} [DecidableEq e] [DecidableEq a] : DecidableEq (Except e a) := by
  intro x y
  cases x <;> cases y
  case error.error u v =>
    by_cases h : u = v
    · exact isTrue (by rw [h])
    · exact isFalse (by intro hc; injection hc; contradiction)
  case error.ok u v => exact isFalse (by intro hc; exact Except.noConfusion hc)
  case ok.error u v => exact isFalse (by intro hc; exact Except.noConfusion hc)
  case ok.ok u v =>
    by_cases h : u = v
    · exact isTrue (by rw [h])
    · exact isFalse (by intro hc; injection hc; contradiction)

/-- `self.simplices[d]`: the simplex set of a dimension key, empty by
`defaultdict` when never written. -/
def simplicesAt (st : BuilderState) (d : Nat) : List Spx :=
  (alookup st.simplices d).getD []

/-- Record `simplex` in `self.simplices[d]`. -/
def addToDim (st : BuilderState) (d : Nat) (s : Spx) : BuilderState :=
  { st with simplices := aupdate st.simplices d (setAdd (simplicesAt st d) s) }

/-- `self.boundary[simplex] = tuple(simplex_boundary)`. -/
def setBoundary (st : BuilderState) (s : Spx) (bd : List Spx) : BuilderState :=
  { st with boundary := aupdate st.boundary s bd }

/-- `Builder._make_simplex` (= `EdgeBuilder._make_simplex`): compute the
canonical key; record the given order if the key is unseen; raise
`VertexOrderError` naming the recorded and the given orders on a
mismatch; succeed idempotently on a match.  Returns the given tuple. -/
def makeSimplex (st : BuilderState) (vs : Spx) : Except Err Spx × BuilderState :=
  match alookup st.sortedSimplices (sortKey vs) with
  | none =>
      (Except.ok vs,
       { st with sortedSimplices := aupdate st.sortedSimplices (sortKey vs) vs })
  | some previous =>
      if previous = vs then (Except.ok vs, st)
      else (Except.error (Err.vertexOrder previous vs), st)

/-- Membership of a vertex in `self.points`, the Cartesian product of
`range(r + 1)` over the declared side lengths. -/
def inBox (sl : List Nat) (v : Vtx) : Bool :=
  v.length = sl.length && (v.zip sl).all fun cr => 0 ≤ cr.1 && cr.1 ≤ (cr.2 : Int)

/-- `remove_one_iter` (`remove_one.py`): all deletions of exactly one
entry, keeping the relative order of the rest. -/
def removeOneIter (s : List Vtx) : List (List Vtx) :=
  (List.range s.length).map fun i => s.take i ++ s.drop (i + 1)

/-- The recursive face insertions of `add_simplex`: insert each face in
order, collecting the returned normal forms; an exception aborts the
loop and propagates with the state at the raise point. -/
def facesLoop (f : BuilderState → Spx → Except Err Spx × BuilderState) :
    List Spx → BuilderState → Except Err (List Spx) × BuilderState
  | [], st => (Except.ok [], st)
  | face :: rest, st =>
      match f st face with
      | (Except.error e, st1) => (Except.error e, st1)
      | (Except.ok s, st1) =>
          match facesLoop f rest st1 with
          | (Except.error e, st2) => (Except.error e, st2)
          | (Except.ok bs, st2) => (Except.ok (s :: bs), st2)

/-- `BoxBuilder.add_simplex` (= `BoxEdgeBuilder.add_simplex`), with a
structural index that every call site instantiates with the vertex count
(the faces recurse at one fewer vertex): intern the simplex, assert every
vertex lies in the box, record the simplex in its dimension's set, insert
every face recursively, then record the ordered boundary tuple. -/
def addSimplexF (sl : List Nat) : Nat → BuilderState → Spx → Except Err Spx × BuilderState
  | fuel, st, vs =>
      match makeSimplex st vs with
      | (Except.error e, st1) => (Except.error e, st1)
      | (Except.ok sx, st1) =>
          if vs.all (inBox sl) then
            let st2 := addToDim st1 vs.length sx
            match fuel with
            | 0 => (Except.ok sx, setBoundary st2 sx [])
            | fuel' + 1 =>
                match facesLoop (addSimplexF sl fuel') (removeOneIter sx) st2 with
                | (Except.error e, st3) => (Except.error e, st3)
                | (Except.ok bd, st3) => (Except.ok sx, setBoundary st3 sx bd)
          else (Except.error Err.assertionFailed, st1)

/-- `add_simplex` proper: the structural index is the vertex count. -/
def addSimplex (sl : List Nat) (st : BuilderState) (vs : Spx) :
    Except Err Spx × BuilderState :=
  addSimplexF sl vs.length st vs

/-- `BoxBuilder.facets_at_boundary` (= `BoxEdgeBuilder.facets_at_boundary`):
the members of `self.simplices[self.dimension]` (`self.dimension` is the
number of declared side lengths) all of whose vertices have the given
coordinate equal to `0` (`inner`) or to the side length (`not inner`). -/
def facetsAtBoundary (sl : List Nat) (st : BuilderState) (axis : Nat) (inner : Bool) :
    List Spx :=
  (simplicesAt st sl.length).filter fun facet =>
    facet.all fun p => p.getD axis 0 = if inner then 0 else (sl.getD axis 0 : Int)

theorem alookup_aupdate_self {α β : Type} [DecidableEq α] (l : List (α × β)) (a : α) (b : β) :
    alookup (aupdate l a b) a = some b := by
  induction l with
  | nil => simp [aupdate, alookup]
  | cons kv rest ih =>
      obtain ⟨k, v⟩ := kv
      by_cases h : a = k
      · simp [aupdate, alookup, h]
      · simp [aupdate, alookup, h, ih]

theorem alookup_aupdate_other {α β : Type} [DecidableEq α] (l : List (α × β))
    (a a' : α) (b : β) (h : a' ≠ a) : alookup (aupdate l a b) a' = alookup l a' := by
  induction l with
  | nil => simp [aupdate, alookup, h]
  | cons kv rest ih =>
      obtain ⟨k, v⟩ := kv
      by_cases hk : a = k
      · subst hk
        simp [aupdate, alookup, h]
      · by_cases hk' : a' = k
        · simp [aupdate, alookup, hk, hk']
        · simp [aupdate, alookup, hk, hk', ih]

theorem aupdate_self {α β : Type} [DecidableEq α] (l : List (α × β)) (a : α) (b : β)
    (h : alookup l a = some b) : aupdate l a b = l := by
  induction l with
  | nil => simp [alookup] at h
  | cons kv rest ih =>
      obtain ⟨k, v⟩ := kv
      by_cases hk : a = k
      · subst hk
        simp [alookup] at h
        simp [aupdate, h]
      · simp [alookup, hk] at h
        simp [aupdate, hk, ih h]

theorem makeSimplex_sortedSimplices_preserved (st : BuilderState) (vs : Spx)
    (k : Spx) (v : Spx) (h : alookup st.sortedSimplices k = some v) :
    alookup (makeSimplex st vs).2.sortedSimplices k = some v := by
  unfold makeSimplex
  cases hl : alookup st.sortedSimplices (sortKey vs) with
  | none =>
      by_cases hk : k = sortKey vs
      · subst hk
        rw [hl] at h
        exact absurd h (by simp)
      · simpa [alookup_aupdate_other _ _ _ _ hk] using h
  | some previous =>
      by_cases hp : previous = vs <;> simp [hp, h]

theorem makeSimplex_simplices (st : BuilderState) (vs : Spx) :
    (makeSimplex st vs).2.simplices = st.simplices := by
  unfold makeSimplex
  cases alookup st.sortedSimplices (sortKey vs) with
  | none => rfl
  | some previous => by_cases hp : previous = vs <;> simp [hp]

theorem makeSimplex_boundary (st : BuilderState) (vs : Spx) :
    (makeSimplex st vs).2.boundary = st.boundary := by
  unfold makeSimplex
  cases alookup st.sortedSimplices (sortKey vs) with
  | none => rfl
  | some previous => by_cases hp : previous = vs <;> simp [hp]

theorem facesLoop_preserves {P : BuilderState → Prop}
    (f : BuilderState → Spx → Except Err Spx × BuilderState)
    (hf : ∀ st vs, P st → P (f st vs).2) :
    ∀ (faces : List Spx) (st : BuilderState), P st → P (facesLoop f faces st).2 := by
  intro faces
  induction faces with
  | nil => intro st h; exact h
  | cons face rest ih =>
      intro st h
      simp only [facesLoop]
      cases hfc : f st face with
      | mk r st1 =>
          have h1 : P st1 := by
            have := hf st face h
            rw [hfc] at this
            exact this
          cases r with
          | error e => exact h1
          | ok s =>
              dsimp only
              cases hrec : facesLoop f rest st1 with
              | mk r2 st2 =>
                  have h2 : P st2 := by
                    have := ih st1 h1
                    rw [hrec] at this
                    exact this
                  cases r2 with
                  | error e => exact h2
                  | ok bs => exact h2

theorem addSimplexF_sortedSimplices_preserved (sl : List Nat) (k v : Spx) :
    ∀ (fuel : Nat) (st : BuilderState) (vs : Spx),
      alookup st.sortedSimplices k = some v →
      alookup (addSimplexF sl fuel st vs).2.sortedSimplices k = some v := by
  intro fuel
  induction fuel with
  | zero =>
      intro st vs h
      rw [addSimplexF]
      cases hms : makeSimplex st vs with
      | mk r st1 =>
          have h1 : alookup st1.sortedSimplices k = some v := by
            have := makeSimplex_sortedSimplices_preserved st vs k v h
            rw [hms] at this
            exact this
          cases r with
          | error e => exact h1
          | ok sx => by_cases hbox : vs.all (inBox sl) = true <;>
              simp [hbox, addToDim, setBoundary, h1]
  | succ fuel ih =>
      intro st vs h
      rw [addSimplexF]
      cases hms : makeSimplex st vs with
      | mk r st1 =>
          have h1 : alookup st1.sortedSimplices k = some v := by
            have := makeSimplex_sortedSimplices_preserved st vs k v h
            rw [hms] at this
            exact this
          cases r with
          | error e => exact h1
          | ok sx =>
              by_cases hbox : vs.all (inBox sl) = true
              · simp only [hbox, if_true]
                have hloop := facesLoop_preserves (addSimplexF sl fuel)
                  (fun st vs h => ih st vs h) (removeOneIter sx)
                  (addToDim st1 vs.length sx) (by simpa [addToDim] using h1)
                cases hfl : facesLoop (addSimplexF sl fuel) (removeOneIter sx)
                    (addToDim st1 vs.length sx) with
                | mk r2 st3 =>
                    rw [hfl] at hloop
                    cases r2 with
                    | error e => exact hloop
                    | ok bd => simpa [setBoundary] using hloop
              · simp [hbox, h1]

theorem makeSimplex_unseen (st : BuilderState) (vs : Spx)
    (h : alookup st.sortedSimplices (sortKey vs) = none) :
    makeSimplex st vs =
      (Except.ok vs,
       { st with sortedSimplices := aupdate st.sortedSimplices (sortKey vs) vs }) := by
  unfold makeSimplex
  rw [h]

theorem makeSimplex_matching (st : BuilderState) (vs previous : Spx)
    (h : alookup st.sortedSimplices (sortKey vs) = some previous) (he : previous = vs) :
    makeSimplex st vs = (Except.ok previous, st) := by
  unfold makeSimplex
  rw [h]
  simp [he]

theorem makeSimplex_mismatch (st : BuilderState) (vs previous : Spx)
    (h : alookup st.sortedSimplices (sortKey vs) = some previous) (hne : previous ≠ vs) :
    makeSimplex st vs = (Except.error (Err.vertexOrder previous vs), st) := by
  unfold makeSimplex
  rw [h]
  simp [hne]

/-- Claim C1: on one builder, the first `_make_simplex` call whose vertices
sort to a given canonical key records that vertex order (and no
`add_simplex` activity ever removes the record); every later call with the
same canonical key but a different order raises `VertexOrderError`
carrying both orders (also when entered through `add_simplex`); every
later call with the same canonical key and the same order succeeds,
returns the first call's result, and leaves the builder unchanged. -/
theorem registry_first_writer_wins :
    (∀ (st : BuilderState) (vs : Spx),
       alookup st.sortedSimplices (sortKey vs) = none →
       (makeSimplex st vs).1 = Except.ok vs ∧
       alookup (makeSimplex st vs).2.sortedSimplices (sortKey vs) = some vs) ∧
    (∀ (sl : List Nat) (fuel : Nat) (st : BuilderState) (ws k v : Spx),
       alookup st.sortedSimplices k = some v →
       alookup (addSimplexF sl fuel st ws).2.sortedSimplices k = some v) ∧
    (∀ (st : BuilderState) (vs previous : Spx),
       alookup st.sortedSimplices (sortKey vs) = some previous → previous ≠ vs →
       makeSimplex st vs = (Except.error (Err.vertexOrder previous vs), st)) ∧
    (∀ (st : BuilderState) (vs previous : Spx),
       alookup st.sortedSimplices (sortKey vs) = some previous → previous = vs →
       makeSimplex st vs = (Except.ok previous, st)) ∧
    (∀ (sl : List Nat) (fuel : Nat) (st : BuilderState) (vs previous : Spx),
       alookup st.sortedSimplices (sortKey vs) = some previous → previous ≠ vs →
       addSimplexF sl fuel st vs = (Except.error (Err.vertexOrder previous vs), st)) := by
  refine ⟨?_, ?_, ?_, ?_, ?_⟩
  · intro st vs h
    rw [makeSimplex_unseen st vs h]
    exact ⟨rfl, alookup_aupdate_self _ _ _⟩
  · intro sl fuel st ws k v h
    exact addSimplexF_sortedSimplices_preserved sl k v fuel st ws h
  · intro st vs previous h hne
    exact makeSimplex_mismatch st vs previous h hne
  · intro st vs previous h he
    exact makeSimplex_matching st vs previous h he
  · intro sl fuel st vs previous h hne
    rw [addSimplexF, makeSimplex_mismatch st vs previous h hne]

/-- The builder after recording the edge `((0,), (1,))` in the registry. -/
def regWitnessSt : BuilderState := (makeSimplex emptyBuilder [[0], [1]]).2

/-- Witness for C1 at the concrete registry holding `((0,), (1,))`: the
reversed order fails naming both orders, the recorded order is returned
unchanged, and `add_simplex` propagates the mismatch error. -/
theorem registry_first_writer_wins_witness :
    makeSimplex regWitnessSt [[1], [0]] =
      (Except.error (Err.vertexOrder [[0], [1]] [[1], [0]]), regWitnessSt) ∧
    makeSimplex regWitnessSt [[0], [1]] = (Except.ok [[0], [1]], regWitnessSt) ∧
    addSimplex [1] regWitnessSt [[1], [0]] =
      (Except.error (Err.vertexOrder [[0], [1]] [[1], [0]]), regWitnessSt) := by
  refine ⟨?_, ?_, ?_⟩
  · exact registry_first_writer_wins.2.2.1 regWitnessSt [[1], [0]] [[0], [1]]
      (by decide) (by decide)
  · exact registry_first_writer_wins.2.2.2.1 regWitnessSt [[0], [1]] [[0], [1]]
      (by decide) rfl
  · exact registry_first_writer_wins.2.2.2.2 [1] 2 regWitnessSt [[1], [0]] [[0], [1]]
      (by decide) (by decide)

/-- Claim C7 (amended): an `add_simplex` call containing a vertex outside
the declared box fails, leaving the simplex table and the boundary map
unchanged; the vertex-order registry, however, is written before the box
assertion runs, so it may keep the record of the rejected call's vertex
order. -/
theorem addSimplex_out_of_box (sl : List Nat) (st : BuilderState) (vs : Spx) (v : Vtx)
    (hv : v ∈ vs) (hbox : inBox sl v = false) :
    (∃ e, (addSimplex sl st vs).1 = Except.error e) ∧
    (addSimplex sl st vs).2.simplices = st.simplices ∧
    (addSimplex sl st vs).2.boundary = st.boundary := by
  have hall : vs.all (inBox sl) = false := by
    cases hca : vs.all (inBox sl) with
    | false => rfl
    | true =>
        rw [List.all_eq_true] at hca
        rw [hca v hv] at hbox
        simp at hbox
  unfold addSimplex
  rw [addSimplexF]
  cases hms : makeSimplex st vs with
  | mk r st1 =>
      have hsimp : st1.simplices = st.simplices := by
        have := makeSimplex_simplices st vs
        rw [hms] at this
        exact this
      have hbd : st1.boundary = st.boundary := by
        have := makeSimplex_boundary st vs
        rw [hms] at this
        exact this
      cases r with
      | error e => exact ⟨⟨e, rfl⟩, hsimp, hbd⟩
      | ok sx =>
          rw [hall]
          exact ⟨⟨Err.assertionFailed, rfl⟩, hsimp, hbd⟩

/-- Witness for C7 (amended) at `BoxBuilder(1)` and the out-of-box vertex
`(2,)` on the fresh builder. -/
theorem addSimplex_out_of_box_witness :
    (∃ e, (addSimplex [1] emptyBuilder [[2]]).1 = Except.error e) ∧
    (addSimplex [1] emptyBuilder [[2]]).2.simplices = emptyBuilder.simplices ∧
    (addSimplex [1] emptyBuilder [[2]]).2.boundary = emptyBuilder.boundary :=
  addSimplex_out_of_box [1] emptyBuilder [[2]] [2] (by decide) (by decide)

/-- Counterexample to C7 as stated: rejecting the out-of-box simplex
`((2,),)` on a fresh `BoxBuilder(1)` fails the box assertion, yet the
canonical vertex-order registry is no longer the pre-call registry —
`_make_simplex` recorded the order before the assertion ran. -/
theorem addSimplex_out_of_box_registry_changed :
    (addSimplex [1] emptyBuilder [[2]]).1 = Except.error Err.assertionFailed ∧
    (addSimplex [1] emptyBuilder [[2]]).2.sortedSimplices ≠ emptyBuilder.sortedSimplices := by
  exact ⟨rfl, by decide⟩

/-- Claim C8: `facets_at_boundary(axis, inner)` returns exactly the
simplices recorded at the builder's declared dimension (the number of
side lengths) all of whose vertices have `axis`-th coordinate `0` when
`inner`, and equal to the declared side length on that axis otherwise. -/
theorem facetsAtBoundary_spec (sl : List Nat) (st : BuilderState) (axis : Nat)
    (inner : Bool) (f : Spx) :
    f ∈ facetsAtBoundary sl st axis inner ↔
      f ∈ simplicesAt st sl.length ∧
      ∀ p ∈ f, p.getD axis 0 = if inner then 0 else (sl.getD axis 0 : Int) := by
  simp [facetsAtBoundary, List.mem_filter, List.all_eq_true]

theorem removeOneIter_eq_map_eraseIdx (s : Spx) :
    removeOneIter s = (List.range s.length).map s.eraseIdx := by
  unfold removeOneIter
  refine List.map_congr_left ?_
  intro i _
  exact (List.eraseIdx_eq_take_drop_succ s i).symm

theorem length_lt_of_mem_removeOneIter {vs f : Spx} (h : f ∈ removeOneIter vs) :
    f.length < vs.length := by
  rw [removeOneIter_eq_map_eraseIdx] at h
  rw [List.mem_map] at h
  obtain ⟨i, hi, rfl⟩ := h
  rw [List.mem_range] at hi
  rw [List.length_eraseIdx_of_lt hi]
  omega

theorem length_of_mem_removeOneIter {vs f : Spx} (h : f ∈ removeOneIter vs) :
    f.length = vs.length - 1 := by
  rw [removeOneIter_eq_map_eraseIdx] at h
  rw [List.mem_map] at h
  obtain ⟨i, hi, rfl⟩ := h
  rw [List.mem_range] at hi
  rw [List.length_eraseIdx_of_lt hi]

theorem subset_of_mem_removeOneIter {vs f : Spx} (h : f ∈ removeOneIter vs) :
    ∀ v ∈ f, v ∈ vs := by
  rw [removeOneIter_eq_map_eraseIdx] at h
  rw [List.mem_map] at h
  obtain ⟨i, _, rfl⟩ := h
  intro v hv
  rw [List.eraseIdx_eq_take_drop_succ] at hv
  rcases List.mem_append.mp hv with h' | h'
  · exact List.take_subset i vs h'
  · exact List.drop_subset (i + 1) vs h'

theorem removeOneIter_getD (vs : Spx) (k : Nat) (h : k < vs.length) :
    (removeOneIter vs).getD k [] = vs.eraseIdx k := by
  rw [removeOneIter_eq_map_eraseIdx]
  simp [List.getD, h]

theorem removeOneIter_length (vs : Spx) : (removeOneIter vs).length = vs.length := by
  simp [removeOneIter]

theorem eraseIdx_comm (vs : List Vtx) :
    ∀ i j : Nat, i < j → (vs.eraseIdx i).eraseIdx (j - 1) = (vs.eraseIdx j).eraseIdx i := by
  induction vs with
  | nil => intro i j _; simp [List.eraseIdx]
  | cons x xs ih =>
      intro i j hij
      cases i with
      | zero =>
          obtain ⟨j', rfl⟩ : ∃ j', j = j' + 1 := ⟨j - 1, by omega⟩
          simp [List.eraseIdx]
      | succ i' =>
          obtain ⟨j', rfl⟩ : ∃ j', j = j' + 1 := ⟨j - 1, by omega⟩
          have hij' : i' < j' := by omega
          obtain ⟨j'', rfl⟩ : ∃ j'', j' = j'' + 1 := ⟨j' - 1, by omega⟩
          simp only [List.eraseIdx, Nat.add_sub_cancel]
          have := ih i' (j'' + 1) hij'
          simpa using this

/-- One builder state extends another: recorded vertex orders, dimension-set
memberships and canonical boundary entries all survive. -/
def ExtendsB (st st2 : BuilderState) : Prop :=
  (∀ k v, alookup st.sortedSimplices k = some v → alookup st2.sortedSimplices k = some v) ∧
  (∀ d s, s ∈ simplicesAt st d → s ∈ simplicesAt st2 d) ∧
  (∀ s, alookup st.boundary s = some (removeOneIter s) →
    alookup st2.boundary s = some (removeOneIter s))

theorem ExtendsB.rfl (st : BuilderState) : ExtendsB st st :=
  ⟨fun _ _ h => h, fun _ _ h => h, fun _ h => h⟩

theorem ExtendsB.trans {st1 st2 st3 : BuilderState}
    (h12 : ExtendsB st1 st2) (h23 : ExtendsB st2 st3) : ExtendsB st1 st3 :=
  ⟨fun k v h => h23.1 k v (h12.1 k v h),
   fun d s h => h23.2.1 d s (h12.2.1 d s h),
   fun s h => h23.2.2 s (h12.2.2 s h)⟩

/-- A simplex is fully recorded in a builder state: its canonical key maps
to it, it is a member of its dimension's set, its boundary entry is its
ordered face tuple, and recursively so for every face. -/
def Interned (st : BuilderState) (vs : Spx) : Prop :=
  alookup st.sortedSimplices (sortKey vs) = some vs ∧
  vs ∈ simplicesAt st vs.length ∧
  alookup st.boundary vs = some (removeOneIter vs) ∧
  ∀ f ∈ removeOneIter vs, Interned st f
termination_by vs.length
decreasing_by exact length_lt_of_mem_removeOneIter (by assumption)

theorem Interned_def (st : BuilderState) (vs : Spx) :
    Interned st vs ↔
      (alookup st.sortedSimplices (sortKey vs) = some vs ∧
       vs ∈ simplicesAt st vs.length ∧
       alookup st.boundary vs = some (removeOneIter vs) ∧
       ∀ f ∈ removeOneIter vs, Interned st f) := by
  rw [Interned]

theorem Interned_mono :
    ∀ (n : Nat) (vs : Spx), vs.length ≤ n → ∀ (st st2 : BuilderState),
      ExtendsB st st2 → Interned st vs → Interned st2 vs := by
  intro n
  induction n with
  | zero =>
      intro vs hn st st2 hext hint
      rw [Interned_def] at hint ⊢
      obtain ⟨h1, h2, h3, h4⟩ := hint
      refine ⟨hext.1 _ _ h1, hext.2.1 _ _ h2, hext.2.2 _ h3, ?_⟩
      intro f hf
      have := length_lt_of_mem_removeOneIter hf
      omega
  | succ n ih =>
      intro vs hn st st2 hext hint
      rw [Interned_def] at hint ⊢
      obtain ⟨h1, h2, h3, h4⟩ := hint
      refine ⟨hext.1 _ _ h1, hext.2.1 _ _ h2, hext.2.2 _ h3, ?_⟩
      intro f hf
      have hlt := length_lt_of_mem_removeOneIter hf
      exact ih f (by omega) st st2 hext (h4 f hf)

theorem mem_setAdd_self {α : Type} [DecidableEq α] (l : List α) (x : α) :
    x ∈ setAdd l x := by
  unfold setAdd
  by_cases h : x ∈ l <;> simp [h]

theorem mem_setAdd_of_mem {α : Type} [DecidableEq α] {l : List α} {y : α} (x : α)
    (h : y ∈ l) : y ∈ setAdd l x := by
  unfold setAdd
  by_cases hx : x ∈ l <;> simp [hx, h]

theorem simplicesAt_addToDim_self (st : BuilderState) (d : Nat) (s : Spx) :
    simplicesAt (addToDim st d s) d = setAdd (simplicesAt st d) s := by
  simp [simplicesAt, addToDim, alookup_aupdate_self]

theorem simplicesAt_addToDim_other (st : BuilderState) (d d' : Nat) (s : Spx)
    (h : d' ≠ d) : simplicesAt (addToDim st d s) d' = simplicesAt st d' := by
  simp [simplicesAt, addToDim, alookup_aupdate_other _ _ _ _ h]

theorem extends_addToDim (st : BuilderState) (d : Nat) (s : Spx) :
    ExtendsB st (addToDim st d s) := by
  refine ⟨fun k v h => h, ?_, fun t h => h⟩
  intro d' t ht
  by_cases hd : d' = d
  · subst hd
    rw [simplicesAt_addToDim_self]
    exact mem_setAdd_of_mem s ht
  · rw [simplicesAt_addToDim_other st d d' s hd]
    exact ht

theorem extends_setBoundary (st : BuilderState) (s : Spx) :
    ExtendsB st (setBoundary st s (removeOneIter s)) := by
  refine ⟨fun k v h => h, fun d t h => h, ?_⟩
  intro t ht
  by_cases hts : t = s
  · subst hts
    simp [setBoundary, alookup_aupdate_self]
  · simpa [setBoundary, alookup_aupdate_other _ _ _ _ hts] using ht

theorem extends_makeSimplex (st : BuilderState) (vs : Spx) :
    ExtendsB st (makeSimplex st vs).2 := by
  refine ⟨?_, ?_, ?_⟩
  · intro k v h
    exact makeSimplex_sortedSimplices_preserved st vs k v h
  · intro d t h
    simpa [simplicesAt, makeSimplex_simplices st vs] using h
  · intro t h
    simpa [makeSimplex_boundary st vs] using h

theorem makeSimplex_ok {st st1 : BuilderState} {vs s : Spx}
    (h : makeSimplex st vs = (Except.ok s, st1)) :
    s = vs ∧ alookup st1.sortedSimplices (sortKey vs) = some vs := by
  cases hl : alookup st.sortedSimplices (sortKey vs) with
  | none =>
      rw [makeSimplex_unseen st vs hl] at h
      injection h with ha hb
      injection ha with ha
      refine ⟨ha.symm, ?_⟩
      rw [← hb]
      exact alookup_aupdate_self _ _ _
  | some previous =>
      by_cases hp : previous = vs
      · rw [makeSimplex_matching st vs previous hl hp] at h
        injection h with ha hb
        injection ha with ha
        rw [← hb]
        refine ⟨by rw [← ha, hp], ?_⟩
        rw [hl, hp]
      · rw [makeSimplex_mismatch st vs previous hl hp] at h
        injection h with ha hb
        exact Except.noConfusion ha

theorem simplicesAt_setBoundary (st : BuilderState) (s : Spx) (bd : List Spx) (d : Nat) :
    simplicesAt (setBoundary st s bd) d = simplicesAt st d := rfl

theorem facesLoop_cons_error
    (f : BuilderState → Spx → Except Err Spx × BuilderState) (face : Spx) (rest : List Spx)
    (st st1 : BuilderState) (e : Err) (h : f st face = (Except.error e, st1)) :
    facesLoop f (face :: rest) st = (Except.error e, st1) := by
  rw [facesLoop, h]

theorem facesLoop_cons_ok_error
    (f : BuilderState → Spx → Except Err Spx × BuilderState) (face : Spx) (rest : List Spx)
    (st st1 st2 : BuilderState) (s : Spx) (e : Err)
    (h1 : f st face = (Except.ok s, st1))
    (h2 : facesLoop f rest st1 = (Except.error e, st2)) :
    facesLoop f (face :: rest) st = (Except.error e, st2) := by
  rw [facesLoop, h1]
  dsimp only
  rw [h2]

theorem facesLoop_cons_ok_ok
    (f : BuilderState → Spx → Except Err Spx × BuilderState) (face : Spx) (rest : List Spx)
    (st st1 st2 : BuilderState) (s : Spx) (bs : List Spx)
    (h1 : f st face = (Except.ok s, st1))
    (h2 : facesLoop f rest st1 = (Except.ok bs, st2)) :
    facesLoop f (face :: rest) st = (Except.ok (s :: bs), st2) := by
  rw [facesLoop, h1]
  dsimp only
  rw [h2]

theorem addSimplexF_make_error (sl : List Nat) (fuel : Nat) (st st1 : BuilderState)
    (vs : Spx) (e : Err) (h : makeSimplex st vs = (Except.error e, st1)) :
    addSimplexF sl fuel st vs = (Except.error e, st1) := by
  rw [addSimplexF, h]

theorem addSimplexF_box_fail (sl : List Nat) (fuel : Nat) (st st1 : BuilderState)
    (vs sx : Spx) (h1 : makeSimplex st vs = (Except.ok sx, st1))
    (h2 : vs.all (inBox sl) = false) :
    addSimplexF sl fuel st vs = (Except.error Err.assertionFailed, st1) := by
  rw [addSimplexF, h1]
  simp [h2]

theorem addSimplexF_zero_ok (sl : List Nat) (st st1 : BuilderState) (vs sx : Spx)
    (h1 : makeSimplex st vs = (Except.ok sx, st1)) (h2 : vs.all (inBox sl) = true) :
    addSimplexF sl 0 st vs =
      (Except.ok sx, setBoundary (addToDim st1 vs.length sx) sx []) := by
  rw [addSimplexF, h1]
  simp [h2]

theorem addSimplexF_succ_faces_error (sl : List Nat) (fuel : Nat)
    (st st1 st3 : BuilderState) (vs sx : Spx) (e : Err)
    (h1 : makeSimplex st vs = (Except.ok sx, st1)) (h2 : vs.all (inBox sl) = true)
    (h3 : facesLoop (addSimplexF sl fuel) (removeOneIter sx) (addToDim st1 vs.length sx) =
      (Except.error e, st3)) :
    addSimplexF sl (fuel + 1) st vs = (Except.error e, st3) := by
  rw [addSimplexF, h1]
  simp [h2, h3]

theorem addSimplexF_succ_faces_ok (sl : List Nat) (fuel : Nat)
    (st st1 st3 : BuilderState) (vs sx : Spx) (bd : List Spx)
    (h1 : makeSimplex st vs = (Except.ok sx, st1)) (h2 : vs.all (inBox sl) = true)
    (h3 : facesLoop (addSimplexF sl fuel) (removeOneIter sx) (addToDim st1 vs.length sx) =
      (Except.ok bd, st3)) :
    addSimplexF sl (fuel + 1) st vs = (Except.ok sx, setBoundary st3 sx bd) := by
  rw [addSimplexF, h1]
  simp [h2, h3]

theorem extends_makeSimplex_eq {st st1 : BuilderState} {vs : Spx}
    {r : Except Err Spx} (h : makeSimplex st vs = (r, st1)) : ExtendsB st st1 := by
  have := extends_makeSimplex st vs
  rw [h] at this
  exact this

theorem facesLoop_ok (sl : List Nat) (fuel : Nat)
    (hok : ∀ (st : BuilderState) (vs s : Spx) (st2 : BuilderState), vs.length = fuel →
      addSimplexF sl fuel st vs = (Except.ok s, st2) →
      s = vs ∧ ExtendsB st st2 ∧ Interned st2 vs) :
    ∀ (faces : List Spx) (st : BuilderState) (bd : List Spx) (st2 : BuilderState),
      (∀ f ∈ faces, f.length = fuel) →
      facesLoop (addSimplexF sl fuel) faces st = (Except.ok bd, st2) →
      bd = faces ∧ ExtendsB st st2 ∧ ∀ f ∈ faces, Interned st2 f := by
  intro faces
  induction faces with
  | nil =>
      intro st bd st2 _ h
      rw [facesLoop] at h
      injection h with h1 h2
      injection h1 with h1
      subst h1 h2
      exact ⟨rfl, ExtendsB.rfl st, by simp⟩
  | cons face rest ih =>
      intro st bd st2 hlen h
      cases hfc : addSimplexF sl fuel st face with
      | mk r1 st1 =>
          cases r1 with
          | error e =>
              rw [facesLoop_cons_error _ _ _ _ _ _ hfc] at h
              injection h with h1 _
              exact Except.noConfusion h1
          | ok s =>
              cases hrec : facesLoop (addSimplexF sl fuel) rest st1 with
              | mk r2 st3 =>
                  cases r2 with
                  | error e =>
                      rw [facesLoop_cons_ok_error _ _ _ _ _ _ _ _ hfc hrec] at h
                      injection h with h1 _
                      exact Except.noConfusion h1
                  | ok bs =>
                      rw [facesLoop_cons_ok_ok _ _ _ _ _ _ _ _ hfc hrec] at h
                      injection h with h1 h2
                      injection h1 with h1
                      subst h2
                      obtain ⟨hsf, hext1, hint1⟩ :=
                        hok st face s st1 (hlen face (by simp)) hfc
                      obtain ⟨hbs, hext2, hint2⟩ :=
                        ih st1 bs st3 (fun f hf => hlen f (by simp [hf])) hrec
                      subst hsf hbs
                      refine ⟨by rw [← h1], hext1.trans hext2, ?_⟩
                      intro f hf
                      rcases List.mem_cons.mp hf with hface | hrest
                      · subst hface
                        exact Interned_mono f.length f le_rfl st1 st3 hext2 hint1
                      · exact hint2 f hrest


theorem addSimplexF_ok (sl : List Nat) :
    ∀ (fuel : Nat) (st : BuilderState) (vs s : Spx) (st2 : BuilderState),
      vs.length = fuel →
      addSimplexF sl fuel st vs = (Except.ok s, st2) →
      s = vs ∧ vs.all (inBox sl) = true ∧ ExtendsB st st2 ∧ Interned st2 vs := by
  intro fuel
  induction fuel with
  | zero =>
      intro st vs s st2 hlen h
      have hnil : vs = [] := List.length_eq_zero.mp hlen
      subst hnil
      cases hms : makeSimplex st [] with
      | mk r1 st1 =>
          cases r1 with
          | error e =>
              rw [addSimplexF_make_error _ _ _ _ _ _ hms] at h
              injection h with h1 _
              exact Except.noConfusion h1
          | ok sx =>
              obtain ⟨hsx, hreg⟩ := makeSimplex_ok hms
              subst sx
              by_cases hbox : ([] : Spx).all (inBox sl) = true
              · rw [addSimplexF_zero_ok _ _ _ _ _ hms hbox] at h
                injection h with h1 h2
                injection h1 with h1
                subst h2
                have hE1 : ExtendsB st st1 := extends_makeSimplex_eq hms
                have hE2 := extends_addToDim st1 (List.length ([] : Spx)) ([] : Spx)
                have hE3 : ExtendsB (addToDim st1 (List.length ([] : Spx)) [])
                    (setBoundary (addToDim st1 (List.length ([] : Spx)) []) [] []) := by
                  have := extends_setBoundary
                    (addToDim st1 (List.length ([] : Spx)) []) ([] : Spx)
                  simpa [removeOneIter] using this
                have hext1 : ExtendsB st1
                    (setBoundary (addToDim st1 (List.length ([] : Spx)) []) [] []) :=
                  hE2.trans hE3
                refine ⟨h1.symm, hbox, (hE1.trans hE2).trans hE3, ?_⟩
                rw [Interned_def]
                refine ⟨hext1.1 _ _ hreg, ?_, ?_, ?_⟩
                · rw [simplicesAt_setBoundary, simplicesAt_addToDim_self]
                  exact mem_setAdd_self _ _
                · have hro : removeOneIter ([] : Spx) = [] := by simp [removeOneIter]
                  rw [hro]
                  exact alookup_aupdate_self _ _ _
                · intro f hf
                  simp [removeOneIter] at hf
              · exact absurd rfl hbox
  | succ fuel ih =>
      intro st vs s st2 hlen h
      cases hms : makeSimplex st vs with
      | mk r1 st1 =>
          cases r1 with
          | error e =>
              rw [addSimplexF_make_error _ _ _ _ _ _ hms] at h
              injection h with h1 _
              exact Except.noConfusion h1
          | ok sx =>
              obtain ⟨hsx, hreg⟩ := makeSimplex_ok hms
              subst sx
              by_cases hbox : vs.all (inBox sl) = true
              · cases hfl : facesLoop (addSimplexF sl fuel) (removeOneIter vs)
                    (addToDim st1 vs.length vs) with
                | mk r2 st3 =>
                    cases r2 with
                    | error e =>
                        rw [addSimplexF_succ_faces_error _ _ _ _ _ _ _ _ hms hbox hfl] at h
                        injection h with h1 _
                        exact Except.noConfusion h1
                    | ok bd =>
                        rw [addSimplexF_succ_faces_ok _ _ _ _ _ _ _ _ hms hbox hfl] at h
                        injection h with h1 h2
                        injection h1 with h1
                        subst h2
                        have hfaces_len : ∀ f ∈ removeOneIter vs, f.length = fuel := by
                          intro f hf
                          have := length_of_mem_removeOneIter hf
                          omega
                        obtain ⟨hbd, hext3, hint3⟩ :=
                          facesLoop_ok sl fuel
                            (fun sta vsa sa sta2 hl ha =>
                              ⟨(ih sta vsa sa sta2 hl ha).1,
                               (ih sta vsa sa sta2 hl ha).2.2.1,
                               (ih sta vsa sa sta2 hl ha).2.2.2⟩)
                            (removeOneIter vs) (addToDim st1 vs.length vs) bd st3
                            hfaces_len hfl
                        subst hbd
                        have hE1 : ExtendsB st st1 := extends_makeSimplex_eq hms
                        have hE2 := extends_addToDim st1 vs.length vs
                        have hE4 := extends_setBoundary st3 vs
                        have hext1 : ExtendsB st1 (setBoundary st3 vs (removeOneIter vs)) :=
                          (hE2.trans hext3).trans hE4
                        refine ⟨h1.symm, hbox, hE1.trans hext1, ?_⟩
                        rw [Interned_def]
                        refine ⟨hext1.1 _ _ hreg, ?_, ?_, ?_⟩
                        · rw [simplicesAt_setBoundary]
                          refine hext3.2.1 _ _ ?_
                          rw [simplicesAt_addToDim_self]
                          exact mem_setAdd_self _ _
                        · exact alookup_aupdate_self _ _ _
                        · intro f hf
                          exact Interned_mono f.length f le_rfl st3 _ hE4 (hint3 f hf)
              · rw [addSimplexF_box_fail _ _ _ _ _ _ hms
                  (by revert hbox; cases vs.all (inBox sl) <;> simp)] at h
                injection h with h1 _
                exact Except.noConfusion h1

theorem addToDim_absorb (st : BuilderState) (d : Nat) (s : Spx)
    (h : s ∈ simplicesAt st d) : addToDim st d s = st := by
  have hadd : setAdd (simplicesAt st d) s = simplicesAt st d := by
    unfold setAdd
    rw [if_pos h]
  cases halo : alookup st.simplices d with
  | none =>
      exfalso
      rw [simplicesAt, halo] at h
      simp at h
  | some l =>
      have hs : simplicesAt st d = l := by rw [simplicesAt, halo]; rfl
      unfold addToDim
      rw [hadd, hs, aupdate_self st.simplices d l halo]

theorem setBoundary_absorb (st : BuilderState) (s : Spx) (bd : List Spx)
    (h : alookup st.boundary s = some bd) : setBoundary st s bd = st := by
  unfold setBoundary
  rw [aupdate_self st.boundary s bd h]

theorem facesLoop_fixed (f : BuilderState → Spx → Except Err Spx × BuilderState) :
    ∀ (l : List Spx) (st : BuilderState),
      (∀ x ∈ l, f st x = (Except.ok x, st)) →
      facesLoop f l st = (Except.ok l, st) := by
  intro l
  induction l with
  | nil => intro st _; rfl
  | cons x xs ih =>
      intro st h
      exact facesLoop_cons_ok_ok f x xs st st st x xs
        (h x (by simp)) (ih st (fun y hy => h y (by simp [hy])))

theorem all_inBox_of_subset (sl : List Nat) (vs f : Spx)
    (hall : vs.all (inBox sl) = true) (hsub : ∀ v ∈ f, v ∈ vs) :
    f.all (inBox sl) = true := by
  rw [List.all_eq_true] at hall ⊢
  intro v hv
  exact hall v (hsub v hv)

theorem addSimplexF_interned (sl : List Nat) :
    ∀ (fuel : Nat) (st : BuilderState) (vs : Spx),
      vs.length = fuel → Interned st vs → vs.all (inBox sl) = true →
      addSimplexF sl fuel st vs = (Except.ok vs, st) := by
  intro fuel
  induction fuel with
  | zero =>
      intro st vs hlen hint hbox
      have hnil : vs = [] := List.length_eq_zero.mp hlen
      subst hnil
      rw [Interned_def] at hint
      obtain ⟨hreg, hmem, hbnd, _⟩ := hint
      rw [addSimplexF_zero_ok sl st st ([] : Spx) ([] : Spx)
        (makeSimplex_matching st [] [] hreg rfl) hbox]
      rw [addToDim_absorb st (List.length ([] : Spx)) [] hmem]
      have hro : removeOneIter ([] : Spx) = [] := by simp [removeOneIter]
      rw [hro] at hbnd
      rw [setBoundary_absorb st [] [] hbnd]
  | succ fuel ih =>
      intro st vs hlen hint hbox
      rw [Interned_def] at hint
      obtain ⟨hreg, hmem, hbnd, hfaces⟩ := hint
      have hfix : ∀ x ∈ removeOneIter vs, addSimplexF sl fuel st x = (Except.ok x, st) := by
        intro x hx
        refine ih st x ?_ (hfaces x hx) ?_
        · have := length_of_mem_removeOneIter hx
          omega
        · exact all_inBox_of_subset sl vs x hbox (subset_of_mem_removeOneIter hx)
      have hfl : facesLoop (addSimplexF sl fuel) (removeOneIter vs)
          (addToDim st vs.length vs) = (Except.ok (removeOneIter vs), st) := by
        rw [addToDim_absorb st vs.length vs hmem]
        exact facesLoop_fixed (addSimplexF sl fuel) (removeOneIter vs) st hfix
      rw [addSimplexF_succ_faces_ok sl fuel st st st vs vs (removeOneIter vs)
        (makeSimplex_matching st vs vs hreg rfl) hbox hfl]
      rw [setBoundary_absorb st vs (removeOneIter vs) hbnd]

/-- Claim C9: `add_simplex` is idempotent — if a simplex with the same
vertices in the same order was already added successfully, adding it again
returns the same canonical simplex and leaves the whole builder state (the
simplex table, the boundary map and the vertex-order registry) exactly as
it was before the repeated call. -/
theorem addSimplex_idempotent (sl : List Nat) (st0 st : BuilderState) (vs s : Spx)
    (h : addSimplex sl st0 vs = (Except.ok s, st)) :
    addSimplex sl st vs = (Except.ok s, st) := by
  obtain ⟨hs, hbox, _, hint⟩ := addSimplexF_ok sl vs.length st0 vs s st rfl h
  subst s
  exact addSimplexF_interned sl vs.length st vs rfl hint hbox

/-- The builder after adding the edge `((0,), (1,))` to `BoxBuilder(1)`. -/
def idemWitnessSt : BuilderState := (addSimplex [1] emptyBuilder [[0], [1]]).2

/-- Witness for C9: re-adding the edge `((0,), (1,))` to the builder that
already holds it returns the same simplex and the same state. -/
theorem addSimplex_idempotent_witness :
    addSimplex [1] idemWitnessSt [[0], [1]] = (Except.ok [[0], [1]], idemWitnessSt) :=
  addSimplex_idempotent [1] emptyBuilder idemWitnessSt [[0], [1]] [[0], [1]] rfl

/-- Claim C2: for every simplex inserted via `add_simplex` with at least 3
vertices and every pair `i < j` of indices into its recorded boundary
tuple, deleting vertex `j - 1` from the `i`-th face gives the same simplex
as deleting vertex `i` from the `j`-th face (the discrete `dd = 0`
identity, with the `k`-th face of a vertex tuple being the tuple with its
`k`-th vertex removed). -/
theorem boundary_of_boundary (sl : List Nat) (st : BuilderState) (vs s : Spx)
    (st2 : BuilderState) (bd : List Spx) (i j : Nat)
    (hadd : addSimplex sl st vs = (Except.ok s, st2))
    (hbd : alookup st2.boundary s = some bd)
    (_hdim : 3 ≤ vs.length) (hij : i < j) (hj : j < bd.length) :
    (bd.getD i []).eraseIdx (j - 1) = (bd.getD j []).eraseIdx i := by
  obtain ⟨hs, _, _, hint⟩ := addSimplexF_ok sl vs.length st vs s st2 rfl hadd
  subst s
  rw [Interned_def] at hint
  have hbd2 := hint.2.2.1
  rw [hbd] at hbd2
  injection hbd2 with hbd2
  subst bd
  rw [removeOneIter_length] at hj
  rw [removeOneIter_getD vs i (by omega), removeOneIter_getD vs j (by omega)]
  exact eraseIdx_comm vs i j hij

/-- The builder after adding the triangle `((0,0), (1,0), (1,1))` to
`BoxBuilder(1, 1)`. -/
def triWitnessSt : BuilderState :=
  (addSimplex [1, 1] emptyBuilder [[0, 0], [1, 0], [1, 1]]).2

/-- Witness for C2 on the triangle `((0,0), (1,0), (1,1))` with face
indices `i = 0`, `j = 1`. -/
theorem boundary_of_boundary_witness :
    (([[[1, 0], [1, 1]], [[0, 0], [1, 1]], [[0, 0], [1, 0]]] : List Spx).getD 0 []).eraseIdx 0 =
    (([[[1, 0], [1, 1]], [[0, 0], [1, 1]], [[0, 0], [1, 0]]] : List Spx).getD 1 []).eraseIdx 0 :=
  boundary_of_boundary [1, 1] emptyBuilder [[0, 0], [1, 0], [1, 1]]
    [[0, 0], [1, 0], [1, 1]] triWitnessSt
    [[[1, 0], [1, 1]], [[0, 0], [1, 1]], [[0, 0], [1, 0]]] 0 1
    rfl (by decide) (by decide) (by decide) (by decide)

/-- `TranslatePoint(i, d)` (`translate_point.py`): add `d` to the `i`-th
coordinate of a point; every caller uses an index below the point's
length (Python would raise `IndexError` otherwise). -/
def translatePoint (i : Nat) (d : Int) (p : Vtx) : Vtx :=
  p.set i (p.getD i 0 + d)

/-- Python `min` over an integer list; the sources only apply it to
nonempty lists (Python `min` of an empty sequence raises). -/
def listMin : List Int → Int
  | [] => 0
  | x :: xs => xs.foldl min x

/-- The `i`-th coordinate of the `jv`-th vertex of a vertex list. -/
def coordAt (cur : List Vtx) (jv i : Nat) : Int := (cur.getD jv []).getD i 0

/-- `min(v[i] for v in vertices)`. -/
def minCoord (cur : List Vtx) (i : Nat) : Int := listMin (cur.map fun v => v.getD i 0)

/-- One axis iteration of `_make_fundamental_region_simplex`: floor-divide
the axis minimum by the side length (`d = min(...) // r`) and translate
every vertex back by `d * r` when that offset is nonzero (the `if t:`
truthiness test of `TranslatePoint`). -/
def canonStep (sl : List Nat) (i : Nat) (cur : List Vtx) : List Vtx :=
  if ((minCoord cur i).fdiv (sl.getD i 0 : Int)) * (sl.getD i 0 : Int) = 0 then cur
  else cur.map
    (translatePoint i (-(((minCoord cur i).fdiv (sl.getD i 0 : Int)) * (sl.getD i 0 : Int))))

/-- The axis loop of `_make_fundamental_region_simplex` truncated to the
first `n` axes. -/
def canonFold (sl : List Nat) (n : Nat) (vs : List Vtx) : List Vtx :=
  (List.range n).foldl (fun cur i => canonStep sl i cur) vs

/-- The full axis loop of `_make_fundamental_region_simplex`. -/
def canonVerts (sl : List Nat) (vs : List Vtx) : List Vtx :=
  (List.range sl.length).foldl (fun cur i => canonStep sl i cur) vs

/-- `_make_fundamental_region_simplex` of `TorusQuotientBuilder`
(`builder.py`) and of `GroupBoxEdgeBuilder` (`edge_accumulator.py`), whose
bodies are identical: an empty vertex tuple is interned as the empty
simplex; otherwise the per-axis translated vertex list is interned. -/
def makeFundamentalRegionSimplex (sl : List Nat) (st : BuilderState) (vs : Spx) :
    Except Err Spx × BuilderState :=
  if vs = [] then makeSimplex st []
  else makeSimplex st (canonVerts sl vs)

theorem canonVerts_eq_canonFold (sl : List Nat) (vs : List Vtx) :
    canonVerts sl vs = canonFold sl sl.length vs := rfl

theorem canonFold_succ (sl : List Nat) (n : Nat) (vs : List Vtx) :
    canonFold sl (n + 1) vs = canonStep sl n (canonFold sl n vs) := by
  unfold canonFold
  rw [List.range_succ, List.foldl_append]
  rfl

theorem getD_translatePoint_ne (p : Vtx) (i j : Nat) (d : Int) (h : i ≠ j) :
    (translatePoint j d p).getD i 0 = p.getD i 0 := by
  simp [translatePoint, List.getD, List.getElem?_set_ne (Ne.symm h)]

theorem getD_translatePoint_self (p : Vtx) (i : Nat) (d : Int) (h : i < p.length) :
    (translatePoint i d p).getD i 0 = p.getD i 0 + d := by
  simp [translatePoint, List.getD, List.getElem?_set_self, h]

theorem translatePoint_length (p : Vtx) (i : Nat) (d : Int) :
    (translatePoint i d p).length = p.length := by
  simp [translatePoint]

theorem getD_map_translatePoint (cur : List Vtx) (j : Nat) (d : Int) (jv : Nat) :
    (cur.map (translatePoint j d)).getD jv [] = translatePoint j d (cur.getD jv []) := by
  rw [List.getD_eq_getElem?_getD, List.getD_eq_getElem?_getD, List.getElem?_map]
  cases hjv : cur[jv]? with
  | none => simp [translatePoint]
  | some v => rfl

theorem listMin_map_add (c : Int) :
    ∀ (l : List Int), l ≠ [] → listMin (l.map fun x => x + c) = listMin l + c := by
  have haux : ∀ (xs : List Int) (a : Int),
      (xs.map fun x => x + c).foldl min (a + c) = xs.foldl min a + c := by
    intro xs
    induction xs with
    | nil => intro a; rfl
    | cons y ys ih =>
        intro a
        simp only [List.map_cons, List.foldl_cons]
        rw [min_add_add_right a y c]
        exact ih (min a y)
  intro l hl
  cases l with
  | nil => exact absurd rfl hl
  | cons x xs => exact haux xs x

theorem minCoord_congr (cur cur2 : List Vtx) (i : Nat) (hlen : cur2.length = cur.length)
    (h : ∀ jv < cur.length, coordAt cur2 jv i = coordAt cur jv i) :
    minCoord cur2 i = minCoord cur i := by
  unfold minCoord
  congr 1
  refine List.ext_getElem (by simp [hlen]) ?_
  intro jv h1 h2
  have hjv : jv < cur.length := by simpa using h2
  have hjv2 : jv < cur2.length := by simpa using h1
  have hc := h jv hjv
  unfold coordAt at hc
  rw [List.getD_eq_getElem cur2 [] hjv2, List.getD_eq_getElem cur [] hjv] at hc
  simpa using hc

theorem minCoord_map_translate (cur : List Vtx) (i : Nat) (d : Int) (hne : cur ≠ [])
    (hvl : ∀ v ∈ cur, i < v.length) :
    minCoord (cur.map (translatePoint i d)) i = minCoord cur i + d := by
  unfold minCoord
  have hmap : (cur.map (translatePoint i d)).map (fun v => v.getD i 0)
      = (cur.map fun v => v.getD i 0).map (fun x => x + d) := by
    rw [List.map_map, List.map_map]
    refine List.map_congr_left ?_
    intro v hv
    simp only [Function.comp]
    exact getD_translatePoint_self v i d (hvl v hv)
  rw [hmap]
  exact listMin_map_add d _ (by simpa using hne)

theorem canonStep_length (sl : List Nat) (i : Nat) (cur : List Vtx) :
    (canonStep sl i cur).length = cur.length := by
  unfold canonStep
  split
  · rfl
  · simp

theorem canonStep_vlen (sl : List Nat) (i : Nat) (cur : List Vtx) (L : Nat)
    (h : ∀ v ∈ cur, v.length = L) : ∀ v ∈ canonStep sl i cur, v.length = L := by
  unfold canonStep
  split
  · exact h
  · intro v hv
    rw [List.mem_map] at hv
    obtain ⟨w, hw, rfl⟩ := hv
    rw [translatePoint_length]
    exact h w hw

theorem coordAt_canonStep_ne (sl : List Nat) (i j : Nat) (cur : List Vtx)
    (h : i ≠ j) (jv : Nat) :
    coordAt (canonStep sl j cur) jv i = coordAt cur jv i := by
  unfold canonStep
  split
  · rfl
  · unfold coordAt
    rw [getD_map_translatePoint]
    exact getD_translatePoint_ne _ _ _ _ h

theorem coordAt_canonStep_self (sl : List Nat) (i : Nat) (cur : List Vtx)
    (hvl : ∀ v ∈ cur, i < v.length) (jv : Nat) (hjv : jv < cur.length) :
    coordAt (canonStep sl i cur) jv i =
      coordAt cur jv i -
        ((minCoord cur i).fdiv (sl.getD i 0 : Int)) * (sl.getD i 0 : Int) := by
  unfold canonStep
  split
  · next hzero => rw [hzero, sub_zero]
  · next hnz =>
      unfold coordAt
      rw [getD_map_translatePoint]
      have hmem : cur.getD jv [] ∈ cur := by
        rw [List.getD_eq_getElem cur [] hjv]
        exact List.getElem_mem hjv
      rw [getD_translatePoint_self _ _ _ (hvl _ hmem)]
      ring

theorem minCoord_canonStep_self (sl : List Nat) (i : Nat) (cur : List Vtx)
    (hne : cur ≠ []) (hvl : ∀ v ∈ cur, i < v.length) :
    minCoord (canonStep sl i cur) i = (minCoord cur i).fmod (sl.getD i 0 : Int) := by
  rw [Int.fmod_def]
  unfold canonStep
  split
  · next hzero =>
      rw [mul_comm] at hzero
      rw [hzero, sub_zero]
  · next hnz =>
      rw [minCoord_map_translate cur i _ hne hvl]
      ring

theorem canonFoldAux (sl : List Nat) (vs : List Vtx) (hne : vs ≠ [])
    (hlenv : ∀ v ∈ vs, v.length = sl.length) :
    ∀ n, n ≤ sl.length →
      (canonFold sl n vs).length = vs.length ∧
      (∀ v ∈ canonFold sl n vs, v.length = sl.length) ∧
      (∀ i, n ≤ i → ∀ jv, coordAt (canonFold sl n vs) jv i = coordAt vs jv i) ∧
      (∀ i < n, ∃ k : Int, ∀ jv < vs.length,
        coordAt (canonFold sl n vs) jv i = coordAt vs jv i - k * (sl.getD i 0 : Int)) ∧
      (∀ i < n, minCoord (canonFold sl n vs) i = (minCoord vs i).fmod (sl.getD i 0 : Int)) := by
  intro n
  induction n with
  | zero =>
      intro _
      refine ⟨rfl, hlenv, fun i _ jv => rfl, ?_, ?_⟩
      · intro i hi
        omega
      · intro i hi
        omega
  | succ n ih =>
      intro hn
      obtain ⟨hlF, hvF, hcF, hkF, hmF⟩ := ih (by omega)
      have hFne : canonFold sl n vs ≠ [] := by
        intro hcon
        rw [hcon] at hlF
        exact hne (List.length_eq_zero.mp hlF.symm)
      have hvlF : ∀ v ∈ canonFold sl n vs, n < v.length := by
        intro v hv
        rw [hvF v hv]
        omega
      rw [canonFold_succ]
      refine ⟨?_, ?_, ?_, ?_, ?_⟩
      · rw [canonStep_length]
        exact hlF
      · exact canonStep_vlen sl n _ _ hvF
      · intro i hi jv
        rw [coordAt_canonStep_ne sl i n _ (by omega) jv]
        exact hcF i (by omega) jv
      · intro i hi
        by_cases hin : i < n
        · obtain ⟨k, hk⟩ := hkF i hin
          refine ⟨k, fun jv hjv => ?_⟩
          rw [coordAt_canonStep_ne sl i n _ (by omega) jv]
          exact hk jv hjv
        · have hieq : i = n := by omega
          subst hieq
          refine ⟨(minCoord (canonFold sl i vs) i).fdiv (sl.getD i 0 : Int), ?_⟩
          intro jv hjv
          rw [coordAt_canonStep_self sl i _ hvlF jv (by omega)]
          rw [hcF i le_rfl jv]
      · intro i hi
        by_cases hin : i < n
        · have hcongr : minCoord (canonStep sl n (canonFold sl n vs)) i =
              minCoord (canonFold sl n vs) i := by
            refine minCoord_congr _ _ i (canonStep_length sl n _) ?_
            intro jv _
            exact coordAt_canonStep_ne sl i n _ (by omega) jv
          rw [hcongr]
          exact hmF i hin
        · have hieq : i = n := by omega
          subst hieq
          have hmin : minCoord (canonFold sl i vs) i = minCoord vs i := by
            refine minCoord_congr vs _ i hlF ?_
            intro jv _
            exact hcF i le_rfl jv
          rw [minCoord_canonStep_self sl i _ hFne hvlF, hmin]

/-- Claim C10: on any nonempty vertex tuple, positive side lengths and
full-dimensional vertices, a successful `_make_fundamental_region_simplex`
returns a simplex obtained from the input by translating each coordinate
axis by an integer multiple of that axis's side length, and in the result
the minimum of every axis coordinate over the vertices lies in
`[0, side_length)`. -/
theorem fundamental_region_postcondition (sl : List Nat) (st st2 : BuilderState)
    (vs s : Spx) (hne : vs ≠ []) (hpos : ∀ r ∈ sl, 0 < r)
    (hlenv : ∀ v ∈ vs, v.length = sl.length)
    (h : makeFundamentalRegionSimplex sl st vs = (Except.ok s, st2)) :
    s.length = vs.length ∧
    (∀ i < sl.length, ∃ k : Int, ∀ jv < vs.length,
      coordAt s jv i = coordAt vs jv i - k * (sl.getD i 0 : Int)) ∧
    (∀ i < sl.length, 0 ≤ minCoord s i ∧ minCoord s i < (sl.getD i 0 : Int)) := by
  rw [makeFundamentalRegionSimplex, if_neg hne] at h
  obtain ⟨hs, _⟩ := makeSimplex_ok h
  subst s
  rw [canonVerts_eq_canonFold]
  obtain ⟨h1, _, _, h4, h5⟩ := canonFoldAux sl vs hne hlenv sl.length le_rfl
  refine ⟨h1, h4, ?_⟩
  intro i hi
  have hr : 0 < (sl.getD i 0 : Int) := by
    have hmem : sl.getD i 0 ∈ sl := by
      rw [List.getD_eq_getElem sl 0 hi]
      exact List.getElem_mem hi
    exact_mod_cast hpos _ hmem
  rw [h5 i hi]
  exact ⟨Int.fmod_nonneg' _ hr, Int.fmod_lt_of_pos _ hr⟩

/-- The registry after canonicalizing `((3,),)` on `TorusQuotientBuilder(2)`. -/
def frWitnessSt : BuilderState := (makeFundamentalRegionSimplex [2] emptyBuilder [[3]]).2

/-- Witness for C10: canonicalizing the vertex `(3,)` over side length 2
gives `(1,)`, a translate by one side length whose axis minimum lies in
`[0, 2)`. -/
theorem fundamental_region_postcondition_witness :
    ([[1]] : Spx).length = ([[3]] : Spx).length ∧
    (∀ i < ([2] : List Nat).length, ∃ k : Int, ∀ jv < ([[3]] : Spx).length,
      coordAt [[1]] jv i = coordAt [[3]] jv i - k * (([2] : List Nat).getD i 0 : Int)) ∧
    (∀ i < ([2] : List Nat).length,
      0 ≤ minCoord [[1]] i ∧ minCoord [[1]] i < (([2] : List Nat).getD i 0 : Int)) :=
  fundamental_region_postcondition [2] emptyBuilder frWitnessSt [[3]] [[1]]
    (by decide) (by decide) (by decide) rfl

/-- A group generator: an arbitrary vertex-to-vertex callable, applied
componentwise to a simplex (`map(gen, simplex)`). -/
abbrev Gen : Type := Vtx → Vtx

/-- One pass over the generators for a popped simplex `s` inside
`TorusQuotientBuilder.orbit`: canonicalize each generator image and extend
both the orbit and the todo collection with unseen images; an interning
`VertexOrderError` propagates out of the loop. -/
def genLoop (sl : List Nat) (s : Spx) :
    List Gen → BuilderState → List Spx → List Spx →
    Except Err (List Spx × List Spx) × BuilderState
  | [], st, orb, todo => (Except.ok (orb, todo), st)
  | g :: gs, st, orb, todo =>
      match makeFundamentalRegionSimplex sl st (s.map g) with
      | (Except.error e, st1) => (Except.error e, st1)
      | (Except.ok img, st1) =>
          if img ∈ orb then genLoop sl s gs st1 orb todo
          else genLoop sl s gs st1 (orb ++ [img]) (todo ++ [img])

/-- The worklist loop of `TorusQuotientBuilder.orbit` (`builder.py`), with
the arbitrary `set.pop()` determinized to the head of the todo list and an
explicit fuel bound (`none` marks exhausted fuel only, never a program
outcome). -/
def orbitLoopTQ (sl : List Nat) (gens : List Gen) :
    Nat → BuilderState → List Spx → List Spx →
    Option (Except Err (List Spx) × BuilderState)
  | _, st, orb, [] => some (Except.ok orb, st)
  | 0, _, _, _ :: _ => none
  | fuel + 1, st, orb, s :: todo =>
      match genLoop sl s gens st orb todo with
      | (Except.error e, st1) => some (Except.error e, st1)
      | (Except.ok (orb1, todo1), st1) => orbitLoopTQ sl gens fuel st1 orb1 todo1

/-- `TorusQuotientBuilder.orbit`: canonicalize the starting simplex, then
run the breadth-first closure worklist. -/
def orbitTQ (sl : List Nat) (gens : List Gen) (fuel : Nat) (st : BuilderState)
    (vs : Spx) : Option (Except Err (List Spx) × BuilderState) :=
  match makeFundamentalRegionSimplex sl st vs with
  | (Except.error e, st1) => some (Except.error e, st1)
  | (Except.ok s0, st1) => orbitLoopTQ sl gens fuel st1 [s0] [s0]

theorem canonStep_nil (sl : List Nat) (i : Nat) : canonStep sl i [] = [] := by
  unfold canonStep
  rw [if_pos]
  show ((minCoord [] i).fdiv (sl.getD i 0 : Int)) * (sl.getD i 0 : Int) = 0
  have hm : minCoord ([] : List Vtx) i = 0 := rfl
  rw [hm, Int.zero_fdiv, zero_mul]

theorem canonFold_nil (sl : List Nat) : ∀ n, canonFold sl n [] = [] := by
  intro n
  induction n with
  | zero => rfl
  | succ n ih => rw [canonFold_succ, ih, canonStep_nil]

theorem canonVerts_nil (sl : List Nat) : canonVerts sl [] = [] := by
  rw [canonVerts_eq_canonFold]
  exact canonFold_nil sl sl.length

theorem makeFundamentalRegionSimplex_ok_val {sl : List Nat} {st st2 : BuilderState}
    {vs s : Spx} (h : makeFundamentalRegionSimplex sl st vs = (Except.ok s, st2)) :
    s = canonVerts sl vs := by
  unfold makeFundamentalRegionSimplex at h
  split at h
  · next hemp =>
      subst hemp
      rw [(makeSimplex_ok h).1, canonVerts_nil]
  · exact (makeSimplex_ok h).1

theorem genLoop_cons_error (sl : List Nat) (s : Spx) (g : Gen) (gs : List Gen)
    (st st1 : BuilderState) (orb todo : List Spx) (e : Err)
    (h : makeFundamentalRegionSimplex sl st (s.map g) = (Except.error e, st1)) :
    genLoop sl s (g :: gs) st orb todo = (Except.error e, st1) := by
  rw [genLoop, h]

theorem genLoop_cons_mem (sl : List Nat) (s : Spx) (g : Gen) (gs : List Gen)
    (st st1 : BuilderState) (orb todo : List Spx) (img : Spx)
    (h : makeFundamentalRegionSimplex sl st (s.map g) = (Except.ok img, st1))
    (hmem : img ∈ orb) :
    genLoop sl s (g :: gs) st orb todo = genLoop sl s gs st1 orb todo := by
  rw [genLoop, h]
  simp [hmem]

theorem genLoop_cons_new (sl : List Nat) (s : Spx) (g : Gen) (gs : List Gen)
    (st st1 : BuilderState) (orb todo : List Spx) (img : Spx)
    (h : makeFundamentalRegionSimplex sl st (s.map g) = (Except.ok img, st1))
    (hmem : img ∉ orb) :
    genLoop sl s (g :: gs) st orb todo =
      genLoop sl s gs st1 (orb ++ [img]) (todo ++ [img]) := by
  rw [genLoop, h]
  simp [hmem]

theorem genLoop_spec (sl : List Nat) (s : Spx) :
    ∀ (gs : List Gen) (st : BuilderState) (orb todo orb1 todo1 : List Spx)
      (st1 : BuilderState),
      genLoop sl s gs st orb todo = (Except.ok (orb1, todo1), st1) →
      ∃ new : List Spx,
        orb1 = orb ++ new ∧ todo1 = todo ++ new ∧ new.Nodup ∧
        (∀ x ∈ new, x ∉ orb) ∧
        (∀ x ∈ new, ∃ g ∈ gs, x = canonVerts sl (s.map g)) ∧
        (∀ g ∈ gs, canonVerts sl (s.map g) ∈ orb1) := by
  intro gs
  induction gs with
  | nil =>
      intro st orb todo orb1 todo1 st1 h
      rw [genLoop] at h
      injection h with h1 h2
      injection h1 with h1
      injection h1 with ho ht
      subst h2
      refine ⟨[], by simp [← ho], by simp [← ht], by simp, by simp, by simp, by simp⟩
  | cons g gs ih =>
      intro st orb todo orb1 todo1 st1 h
      cases hm : makeFundamentalRegionSimplex sl st (s.map g) with
      | mk r st' =>
          cases r with
          | error e =>
              rw [genLoop_cons_error sl s g gs st st' orb todo e hm] at h
              injection h with h1 _
              exact Except.noConfusion h1
          | ok img =>
              have himg : img = canonVerts sl (s.map g) :=
                makeFundamentalRegionSimplex_ok_val hm
              by_cases hmem : img ∈ orb
              · rw [genLoop_cons_mem sl s g gs st st' orb todo img hm hmem] at h
                obtain ⟨new, ho, ht, hnd, hfresh, hsrc, hcov⟩ :=
                  ih st' orb todo orb1 todo1 st1 h
                refine ⟨new, ho, ht, hnd, hfresh, ?_, ?_⟩
                · intro x hx
                  obtain ⟨g', hg', hx'⟩ := hsrc x hx
                  exact ⟨g', by simp [hg'], hx'⟩
                · intro g' hg'
                  rcases List.mem_cons.mp hg' with rfl | hg'
                  · rw [← himg, ho]
                    exact List.mem_append_left _ hmem
                  · exact hcov g' hg'
              · rw [genLoop_cons_new sl s g gs st st' orb todo img hm hmem] at h
                obtain ⟨new, ho, ht, hnd, hfresh, hsrc, hcov⟩ :=
                  ih st' (orb ++ [img]) (todo ++ [img]) orb1 todo1 st1 h
                refine ⟨img :: new, ?_, ?_, ?_, ?_, ?_, ?_⟩
                · rw [ho, List.append_assoc]
                  rfl
                · rw [ht, List.append_assoc]
                  rfl
                · rw [List.nodup_cons]
                  refine ⟨fun hcon => ?_, hnd⟩
                  have := hfresh img hcon
                  simp at this
                · intro x hx
                  rcases List.mem_cons.mp hx with rfl | hx'
                  · exact hmem
                  · intro hcon
                    exact hfresh x hx' (List.mem_append_left _ hcon)
                · intro x hx
                  rcases List.mem_cons.mp hx with rfl | hx'
                  · exact ⟨g, by simp, himg⟩
                  · obtain ⟨g', hg', hx''⟩ := hsrc x hx'
                    exact ⟨g', by simp [hg'], hx''⟩
                · intro g' hg'
                  rcases List.mem_cons.mp hg' with rfl | hg'
                  · rw [← himg, ho]
                    exact List.mem_append_left _ (by simp)
                  · exact hcov g' hg'

theorem orbitLoopTQ_nil (sl : List Nat) (gens : List Gen) (fuel : Nat)
    (st : BuilderState) (orb : List Spx) :
    orbitLoopTQ sl gens fuel st orb [] = some (Except.ok orb, st) := by
  cases fuel <;> rfl

theorem orbitLoopTQ_cons_error (sl : List Nat) (gens : List Gen) (fuel : Nat)
    (st st1 : BuilderState) (orb todo : List Spx) (s : Spx) (e : Err)
    (h : genLoop sl s gens st orb todo = (Except.error e, st1)) :
    orbitLoopTQ sl gens (fuel + 1) st orb (s :: todo) = some (Except.error e, st1) := by
  rw [orbitLoopTQ, h]

theorem orbitLoopTQ_cons_ok (sl : List Nat) (gens : List Gen) (fuel : Nat)
    (st st1 : BuilderState) (orb todo orb1 todo1 : List Spx) (s : Spx)
    (h : genLoop sl s gens st orb todo = (Except.ok (orb1, todo1), st1)) :
    orbitLoopTQ sl gens (fuel + 1) st orb (s :: todo) =
      orbitLoopTQ sl gens fuel st1 orb1 todo1 := by
  rw [orbitLoopTQ, h]

theorem orbitLoopTQ_closed (sl : List Nat) (gens : List Gen) :
    ∀ (fuel : Nat) (st : BuilderState) (orb todo O : List Spx) (stF : BuilderState),
      (∀ t ∈ todo, t ∈ orb) → todo.Nodup →
      (∀ s ∈ orb, s ∉ todo → ∀ g ∈ gens, canonVerts sl (s.map g) ∈ orb) →
      orbitLoopTQ sl gens fuel st orb todo = some (Except.ok O, stF) →
      ∀ g ∈ gens, ∀ s ∈ O, canonVerts sl (s.map g) ∈ O := by
  intro fuel
  induction fuel with
  | zero =>
      intro st orb todo O stF hsub hnd hcl h
      cases todo with
      | nil =>
          rw [orbitLoopTQ_nil] at h
          injection h with h1
          injection h1 with h1 h2
          injection h1 with h1
          subst h1
          intro g hg s hs
          exact hcl s hs (by simp) g hg
      | cons s todo' => exact Option.noConfusion h
  | succ fuel ih =>
      intro st orb todo O stF hsub hnd hcl h
      cases todo with
      | nil =>
          rw [orbitLoopTQ_nil] at h
          injection h with h1
          injection h1 with h1 h2
          injection h1 with h1
          subst h1
          intro g hg s hs
          exact hcl s hs (by simp) g hg
      | cons s todo' =>
          cases hg : genLoop sl s gens st orb todo' with
          | mk r st1 =>
              cases r with
              | error e =>
                  rw [orbitLoopTQ_cons_error sl gens fuel st st1 orb todo' s e hg] at h
                  injection h with h1
                  injection h1 with h1
                  exact Except.noConfusion h1
              | ok p =>
                  obtain ⟨orb1, todo1⟩ := p
                  rw [orbitLoopTQ_cons_ok sl gens fuel st st1 orb todo' orb1 todo1 s hg] at h
                  obtain ⟨new, ho, ht, hndnew, hfresh, _, hcov⟩ :=
                    genLoop_spec sl s gens st orb todo' orb1 todo1 st1 hg
                  have hsub1 : ∀ t ∈ todo1, t ∈ orb1 := by
                    intro t htm
                    rw [ht] at htm
                    rcases List.mem_append.mp htm with h' | h'
                    · rw [ho]
                      exact List.mem_append_left _ (hsub t (List.mem_cons_of_mem s h'))
                    · rw [ho]
                      exact List.mem_append_right _ h'
                  have hnd1 : todo1.Nodup := by
                    rw [ht]
                    refine (List.nodup_cons.mp hnd).2.append hndnew ?_
                    intro x hx hxn
                    exact hfresh x hxn (hsub x (List.mem_cons_of_mem s hx))
                  have hcl1 : ∀ x ∈ orb1, x ∉ todo1 →
                      ∀ g ∈ gens, canonVerts sl (x.map g) ∈ orb1 := by
                    intro x hx hxn g hgm
                    rw [ho] at hx
                    rcases List.mem_append.mp hx with hxo | hxnew
                    · by_cases hxs : x = s
                      · subst hxs
                        exact hcov g hgm
                      · have hxt : x ∉ s :: todo' := by
                          intro hcon
                          rcases List.mem_cons.mp hcon with h' | h'
                          · exact hxs h'
                          · exact hxn (ht ▸ List.mem_append_left _ h')
                        rw [ho]
                        exact List.mem_append_left _ (hcl x hxo hxt g hgm)
                    · exact absurd (ht ▸ List.mem_append_right _ hxnew) hxn
                  exact ih st1 orb1 todo1 O stF hsub1 hnd1 hcl1 h

/-- Claim C5 (amended): for `TorusQuotientBuilder.orbit`, every simplex of
a returned orbit stays in the orbit after applying any supplied group
generator componentwise and canonicalizing to the fundamental region. -/
theorem orbit_closure_torus_quotient (sl : List Nat) (gens : List Gen) (fuel : Nat)
    (st stF : BuilderState) (vs : Spx) (O : List Spx)
    (h : orbitTQ sl gens fuel st vs = some (Except.ok O, stF)) :
    ∀ g ∈ gens, ∀ s ∈ O, canonVerts sl (s.map g) ∈ O := by
  cases hm : makeFundamentalRegionSimplex sl st vs with
  | mk r st1 =>
      cases r with
      | error e =>
          have heq : orbitTQ sl gens fuel st vs = some (Except.error e, st1) := by
            unfold orbitTQ
            rw [hm]
          rw [heq] at h
          injection h with h1
          injection h1 with h1
          exact Except.noConfusion h1
      | ok s0 =>
          have heq : orbitTQ sl gens fuel st vs = orbitLoopTQ sl gens fuel st1 [s0] [s0] := by
            unfold orbitTQ
            rw [hm]
          rw [heq] at h
          refine orbitLoopTQ_closed sl gens fuel st1 [s0] [s0] O stF
            (by simp) (by simp) ?_ h
          intro s hs hns g _
          rw [List.mem_singleton] at hs
          subst hs
          exact absurd (List.mem_singleton_self s) hns

/-- The identity generator, used by concrete witnesses. -/
def idGen : Gen := fun v => v

/-- Witness for C5 (amended, `TorusQuotientBuilder` part) on the orbit of
the vertex `(0,)` under the identity generator over side length 2. -/
theorem orbit_closure_torus_quotient_witness :
    canonVerts [2] (([[0]] : Spx).map idGen) ∈ ([[[0]]] : List Spx) :=
  orbit_closure_torus_quotient [2] [idGen] 2 emptyBuilder
    ⟨[([[0]], [[0]])], [], []⟩ [[0]] [[[0]]] rfl idGen
    (List.mem_singleton_self idGen) [[0]] (List.mem_singleton_self [[0]])

/-- Intern a list of simplices in order (the list comprehension
`[self._make_simplex(*map(t, s)) for s in images]`); an exception aborts
the comprehension. -/
def internList : List Spx → BuilderState → Except Err (List Spx) × BuilderState
  | [], st => (Except.ok [], st)
  | x :: xs, st =>
      match makeSimplex st x with
      | (Except.error e, st1) => (Except.error e, st1)
      | (Except.ok s, st1) =>
          match internList xs st1 with
          | (Except.error e, st2) => (Except.error e, st2)
          | (Except.ok ss, st2) => (Except.ok (s :: ss), st2)

/-- The axis loop of `GroupBoxEdgeBuilder._make_torus_images`
(`edge_accumulator.py`): for every axis on which every vertex of the
ORIGINAL simplex has coordinate zero, extend the image list with the
translates of every image accumulated so far by one side length. -/
def torusImagesLoop (sl : List Nat) (vs : Spx) :
    List Nat → List Spx → BuilderState → Except Err (List Spx) × BuilderState
  | [], images, st => (Except.ok images, st)
  | i :: rest, images, st =>
      if vs.all (fun v => v.getD i 0 = 0) then
        match internList
            (images.map fun s => s.map (translatePoint i (sl.getD i 0 : Int))) st with
        | (Except.error e, st1) => (Except.error e, st1)
        | (Except.ok more, st1) => torusImagesLoop sl vs rest (images ++ more) st1
      else torusImagesLoop sl vs rest images st

/-- `GroupBoxEdgeBuilder._make_torus_images`. -/
def makeTorusImages (sl : List Nat) (st : BuilderState) (vs : Spx) :
    Except Err (List Spx) × BuilderState :=
  match makeSimplex st vs with
  | (Except.error e, st1) => (Except.error e, st1)
  | (Except.ok s, st1) => torusImagesLoop sl vs (List.range sl.length) [s] st1

/-- Python `set.update`: add every element not already present. -/
def foldSetAdd (l : List Spx) (xs : List Spx) : List Spx := xs.foldl setAdd l

/-- The generator pass of `GroupBoxEdgeBuilder.orbit`: an unseen
canonicalized image is added to the orbit together with its torus images,
but only the image itself is enqueued on the todo collection. -/
def genLoopGB (sl : List Nat) (s : Spx) :
    List Gen → BuilderState → List Spx → List Spx →
    Except Err (List Spx × List Spx) × BuilderState
  | [], st, orb, todo => (Except.ok (orb, todo), st)
  | g :: gs, st, orb, todo =>
      match makeFundamentalRegionSimplex sl st (s.map g) with
      | (Except.error e, st1) => (Except.error e, st1)
      | (Except.ok img, st1) =>
          if img ∈ orb then genLoopGB sl s gs st1 orb todo
          else
            match makeTorusImages sl st1 img with
            | (Except.error e, st2) => (Except.error e, st2)
            | (Except.ok imgs, st2) =>
                genLoopGB sl s gs st2 (foldSetAdd (orb ++ [img]) imgs) (todo ++ [img])

/-- The worklist loop of `GroupBoxEdgeBuilder.orbit`, determinized and
fuelled exactly like `orbitLoopTQ`. -/
def orbitLoopGB (sl : List Nat) (gens : List Gen) :
    Nat → BuilderState → List Spx → List Spx →
    Option (Except Err (List Spx) × BuilderState)
  | _, st, orb, [] => some (Except.ok orb, st)
  | 0, _, _, _ :: _ => none
  | fuel + 1, st, orb, s :: todo =>
      match genLoopGB sl s gens st orb todo with
      | (Except.error e, st1) => some (Except.error e, st1)
      | (Except.ok (orb1, todo1), st1) => orbitLoopGB sl gens fuel st1 orb1 todo1

/-- `GroupBoxEdgeBuilder.orbit` (`edge_accumulator.py`): canonicalize the
start simplex, seed the orbit with its torus images, then close under the
generators. -/
def orbitGB (sl : List Nat) (gens : List Gen) (fuel : Nat) (st : BuilderState)
    (vs : Spx) : Option (Except Err (List Spx) × BuilderState) :=
  match makeFundamentalRegionSimplex sl st vs with
  | (Except.error e, st1) => some (Except.error e, st1)
  | (Except.ok s0, st1) =>
      match makeTorusImages sl st1 s0 with
      | (Except.error e, st2) => some (Except.error e, st2)
      | (Except.ok imgs, st2) => orbitLoopGB sl gens fuel st2 (foldSetAdd [] imgs) [s0]

/-- The generator of the C5 counterexample: fixes the unit edge at the box
bottom, but moves the vertices of its torus translate sideways. -/
def gcex : Gen := fun v => if v = [0, 2] then [0, 1] else if v = [1, 2] then [1, 0] else v

/-- Whether an orbit run returned normally. -/
def isOkOrbit (r : Option (Except Err (List Spx) × BuilderState)) : Bool :=
  match r with
  | some (Except.ok _, _) => true
  | _ => false

/-- The orbit tuple of a normally returned orbit run. -/
def orbitListOf (r : Option (Except Err (List Spx) × BuilderState)) : List Spx :=
  match r with
  | some (Except.ok O, _) => O
  | _ => []

/-- Counterexample to C5 as stated: `GroupBoxEdgeBuilder.orbit` on the
edge `((0,0), (1,0))` in the `(2, 2)` box with the single generator `gcex`
returns normally with an orbit containing the torus image
`((0,2), (1,2))`, yet applying the generator to that member and
canonicalizing yields `((0,1), (1,0))`, which is not in the orbit — the
torus images are added to the orbit without being enqueued for generator
processing. -/
theorem orbitGB_not_closed :
    isOkOrbit (orbitGB [2, 2] [gcex] 2 emptyBuilder [[0, 0], [1, 0]]) = true ∧
    gcex ∈ [gcex] ∧
    [[0, 2], [1, 2]] ∈ orbitListOf (orbitGB [2, 2] [gcex] 2 emptyBuilder [[0, 0], [1, 0]]) ∧
    canonVerts [2, 2] (([[0, 2], [1, 2]] : Spx).map gcex) ∉
      orbitListOf (orbitGB [2, 2] [gcex] 2 emptyBuilder [[0, 0], [1, 0]]) := by
  refine ⟨rfl, List.mem_singleton_self gcex, by decide, by decide⟩

/-- The expanding generator of the C6 counterexample: it fixes the origin
and pushes every other 1-dimensional vertex two units up. -/
def gexp : Gen := fun v => if v.getD 0 0 = 0 then v else [v.getD 0 0 + 2]

/-- The `k`-th simplex discovered by the diverging orbit run. -/
def sCex (k : Nat) : Spx := [[0], [2 * (k : Int) + 1]]

/-- The registry after the diverging run has interned `sCex 0 .. sCex k`. -/
def regCex (k : Nat) : BuilderState :=
  ⟨(List.range (k + 1)).map fun j => (sCex j, sCex j), [], []⟩

/-- The orbit accumulated by the diverging run after `k` worklist steps. -/
def orbCex (k : Nat) : List Spx := (List.range (k + 1)).map sCex

theorem sCex_ne {j k : Nat} (h : j ≠ k) : sCex j ≠ sCex k := by
  intro hcon
  apply h
  have hc : (2 * (j : Int) + 1) = 2 * (k : Int) + 1 := by
    have := congrArg (fun l => coordAt l 1 0) hcon
    simpa [sCex, coordAt] using this
  omega

theorem map_gexp_sCex (k : Nat) : (sCex k).map gexp = sCex (k + 1) := by
  have h1 : gexp [0] = [0] := by decide
  have h2 : gexp [2 * (k : Int) + 1] = [2 * (k : Int) + 1 + 2] := by
    unfold gexp
    have hg : List.getD [2 * (k : Int) + 1] 0 0 = 2 * (k : Int) + 1 := rfl
    rw [hg, if_neg (by omega)]
  show [gexp [0], gexp [2 * (k : Int) + 1]] = sCex (k + 1)
  rw [h1, h2, show (2 * (k : Int) + 1 + 2) = 2 * ((k + 1 : Nat) : Int) + 1 by push_cast; ring]
  rfl

theorem minCoord_sCex (j : Nat) : minCoord (sCex j) 0 = 0 := by
  simp only [minCoord, sCex, List.map_cons, List.map_nil, List.getD, listMin]
  simp only [List.foldl_cons, List.foldl_nil]
  norm_num
  omega

theorem canonVerts_sCex (j : Nat) : canonVerts [2] (sCex j) = sCex j := by
  show canonStep [2] 0 (sCex j) = sCex j
  unfold canonStep
  rw [minCoord_sCex, Int.zero_fdiv, zero_mul, if_pos rfl]

theorem sortKey_sCex (j : Nat) : sortKey (sCex j) = sCex j := by
  show insertVtx [0] (insertVtx [2 * (j : Int) + 1] []) = sCex j
  show insertVtx [0] [[2 * (j : Int) + 1]] = sCex j
  unfold insertVtx
  rw [if_pos]
  · rfl
  · show vtxLe [0] [2 * (j : Int) + 1] = true
    unfold vtxLe
    rw [if_pos (by omega)]

theorem alookup_none_of_forall {α β : Type} [DecidableEq α] (l : List (α × β)) (a : α)
    (h : ∀ p ∈ l, a ≠ p.1) : alookup l a = none := by
  induction l with
  | nil => rfl
  | cons kv rest ih =>
      obtain ⟨k, v⟩ := kv
      rw [alookup, if_neg (h (k, v) (by simp))]
      exact ih fun p hp => h p (by simp [hp])

theorem aupdate_append_of_none {α β : Type} [DecidableEq α] (l : List (α × β))
    (a : α) (b : β) (h : alookup l a = none) : aupdate l a b = l ++ [(a, b)] := by
  induction l with
  | nil => rfl
  | cons kv rest ih =>
      obtain ⟨k, v⟩ := kv
      rw [alookup] at h
      by_cases hk : a = k
      · rw [if_pos hk] at h
        exact Option.noConfusion h
      · rw [if_neg hk] at h
        rw [aupdate, if_neg hk, ih h]
        rfl

theorem alookup_regCex (k m : Nat) (hm : m ≤ k + 1) :
    alookup ((List.range m).map fun j => (sCex j, sCex j)) (sCex (k + 1)) = none := by
  refine alookup_none_of_forall _ _ ?_
  intro p hp
  rw [List.mem_map] at hp
  obtain ⟨j, hj, rfl⟩ := hp
  rw [List.mem_range] at hj
  exact sCex_ne (by omega)

theorem sCex_not_mem_orbCex (k : Nat) : sCex (k + 1) ∉ orbCex k := by
  intro hcon
  rw [orbCex, List.mem_map] at hcon
  obtain ⟨j, hj, hjeq⟩ := hcon
  rw [List.mem_range] at hj
  exact sCex_ne (show k + 1 ≠ j by omega) hjeq.symm

theorem makeSimplex_regCex (k : Nat) :
    makeSimplex (regCex k) (sCex (k + 1)) = (Except.ok (sCex (k + 1)), regCex (k + 1)) := by
  unfold makeSimplex
  rw [sortKey_sCex]
  have hnone : alookup (regCex k).sortedSimplices (sCex (k + 1)) = none :=
    alookup_regCex k (k + 1) le_rfl
  rw [hnone]
  have hupd : aupdate (regCex k).sortedSimplices (sCex (k + 1)) (sCex (k + 1)) =
      (regCex (k + 1)).sortedSimplices := by
    rw [aupdate_append_of_none _ _ _ hnone]
    show ((List.range (k + 1)).map fun j => (sCex j, sCex j)) ++ [(sCex (k + 1), sCex (k + 1))] =
      (List.range (k + 2)).map fun j => (sCex j, sCex j)
    rw [show (List.range (k + 2)) = List.range (k + 1) ++ [k + 1] from List.range_succ (k + 1),
      List.map_append]
    rfl
  rw [show (regCex (k + 1) : BuilderState) =
    { regCex k with sortedSimplices := (regCex (k + 1)).sortedSimplices } from rfl]
  rw [← hupd]

theorem makeFRS_regCex (k : Nat) :
    makeFundamentalRegionSimplex [2] (regCex k) ((sCex k).map gexp) =
      (Except.ok (sCex (k + 1)), regCex (k + 1)) := by
  rw [map_gexp_sCex]
  unfold makeFundamentalRegionSimplex
  rw [if_neg (by simp [sCex])]
  rw [canonVerts_sCex]
  exact makeSimplex_regCex k

theorem genLoop_regCex (k : Nat) :
    genLoop [2] (sCex k) [gexp] (regCex k) (orbCex k) [] =
      (Except.ok (orbCex (k + 1), [sCex (k + 1)]), regCex (k + 1)) := by
  have horb : orbCex k ++ [sCex (k + 1)] = orbCex (k + 1) := by
    rw [orbCex, orbCex,
      show (List.range (k + 2)) = List.range (k + 1) ++ [k + 1] from List.range_succ (k + 1),
      List.map_append]
    rfl
  rw [genLoop, makeFRS_regCex k]
  dsimp only
  rw [if_neg (sCex_not_mem_orbCex k), genLoop, horb]
  rfl

theorem orbitLoopTQ_diverges : ∀ (fuel k : Nat),
    orbitLoopTQ [2] [gexp] fuel (regCex k) (orbCex k) [sCex k] = none := by
  intro fuel
  induction fuel with
  | zero => intro k; rfl
  | succ fuel ih =>
      intro k
      rw [orbitLoopTQ_cons_ok [2] [gexp] fuel (regCex k) (regCex (k + 1))
        (orbCex k) [] (orbCex (k + 1)) [sCex (k + 1)] (sCex k) (genLoop_regCex k)]
      exact ih (k + 1)

/-- Counterexample to C6 as stated: with the single (legitimate,
duck-typed) generator `gexp`, the orbit worklist of
`TorusQuotientBuilder((2,)).orbit((0,), (1,))` discovers the fresh simplex
`((0,), (2k+3,))` at every step, so no amount of fuel makes the loop
return — the breadth-first closure does not terminate. -/
theorem orbit_nontermination :
    ¬ ∃ (fuel : Nat) (r : Except Err (List Spx) × BuilderState),
      orbitTQ [2] [gexp] fuel emptyBuilder [[0], [1]] = some r := by
  rintro ⟨fuel, r, h⟩
  have hm : makeFundamentalRegionSimplex [2] emptyBuilder [[0], [1]] =
      (Except.ok (sCex 0), regCex 0) := by decide
  have heq : orbitTQ [2] [gexp] fuel emptyBuilder [[0], [1]] =
      orbitLoopTQ [2] [gexp] fuel (regCex 0) (orbCex 0) [sCex 0] := by
    unfold orbitTQ
    rw [hm]
    rfl
  rw [heq, orbitLoopTQ_diverges fuel 0] at h
  exact Option.noConfusion h

theorem nodup_length_le_card {S : Finset Spx} {l : List Spx} (hnd : l.Nodup)
    (hS : ∀ x ∈ l, x ∈ S) : l.length ≤ S.card := by
  rw [← List.toFinset_card_of_nodup hnd]
  refine Finset.card_le_card ?_
  intro x hx
  rw [List.mem_toFinset] at hx
  exact hS x hx

theorem orbitLoopTQ_terminates (sl : List Nat) (gens : List Gen) (S : Finset Spx)
    (hcl : ∀ s ∈ S, ∀ g ∈ gens, canonVerts sl (s.map g) ∈ S) :
    ∀ (fuel : Nat) (st : BuilderState) (orb todo : List Spx),
      orb.Nodup → (∀ x ∈ orb, x ∈ S) → (∀ t ∈ todo, t ∈ orb) →
      todo.length + 2 * S.card < fuel + 2 * orb.length →
      (orbitLoopTQ sl gens fuel st orb todo).isSome = true := by
  intro fuel
  induction fuel with
  | zero =>
      intro st orb todo hnd hS hsub hmeas
      cases todo with
      | nil => rw [orbitLoopTQ_nil]; rfl
      | cons s todo' =>
          exfalso
          have hcard : orb.length ≤ S.card := nodup_length_le_card hnd hS
          simp only [List.length_cons] at hmeas
          omega
  | succ fuel ih =>
      intro st orb todo hnd hS hsub hmeas
      cases todo with
      | nil => rw [orbitLoopTQ_nil]; rfl
      | cons s todo' =>
          cases hg : genLoop sl s gens st orb todo' with
          | mk r st1 =>
              cases r with
              | error e =>
                  rw [orbitLoopTQ_cons_error sl gens fuel st st1 orb todo' s e hg]
                  rfl
              | ok p =>
                  obtain ⟨orb1, todo1⟩ := p
                  rw [orbitLoopTQ_cons_ok sl gens fuel st st1 orb todo' orb1 todo1 s hg]
                  obtain ⟨new, ho, ht, hndnew, hfresh, hsrc, _⟩ :=
                    genLoop_spec sl s gens st orb todo' orb1 todo1 st1 hg
                  have hnd1 : orb1.Nodup := by
                    rw [ho]
                    exact hnd.append hndnew fun x hx hxn => hfresh x hxn hx
                  have hS1 : ∀ x ∈ orb1, x ∈ S := by
                    intro x hx
                    rw [ho] at hx
                    rcases List.mem_append.mp hx with h' | h'
                    · exact hS x h'
                    · obtain ⟨g, hgm, rfl⟩ := hsrc x h'
                      exact hcl s (hS s (hsub s (by simp))) g hgm
                  have hsub1 : ∀ t ∈ todo1, t ∈ orb1 := by
                    intro t htm
                    rw [ht] at htm
                    rw [ho]
                    rcases List.mem_append.mp htm with h' | h'
                    · exact List.mem_append_left _ (hsub t (List.mem_cons_of_mem s h'))
                    · exact List.mem_append_right _ h'
                  have hmeas1 : todo1.length + 2 * S.card < fuel + 2 * orb1.length := by
                    rw [ht, ho, List.length_append, List.length_append]
                    simp only [List.length_cons] at hmeas
                    omega
                  exact ih st1 orb1 todo1 hnd1 hS1 hsub1 hmeas1

/-- Claim C6 (amended): the breadth-first closure of
`TorusQuotientBuilder.orbit` terminates whenever the canonicalized action
of the supplied generators preserves some finite set of simplices
containing the canonicalized start (in particular, whenever the generators
keep simplices among the lattice points of the box) — but not for every
duck-typed generator function: an expanding generator makes the worklist
grow forever. -/
theorem orbit_terminates_of_finite_closure (sl : List Nat) (gens : List Gen)
    (st : BuilderState) (vs : Spx) (S : Finset Spx)
    (h0 : canonVerts sl vs ∈ S)
    (hcl : ∀ s ∈ S, ∀ g ∈ gens, canonVerts sl (s.map g) ∈ S)
    (fuel : Nat) (hfuel : 2 * S.card ≤ fuel) :
    (orbitTQ sl gens fuel st vs).isSome = true := by
  cases hm : makeFundamentalRegionSimplex sl st vs with
  | mk r st1 =>
      cases r with
      | error e =>
          have heq : orbitTQ sl gens fuel st vs = some (Except.error e, st1) := by
            unfold orbitTQ
            rw [hm]
          rw [heq]
          rfl
      | ok s0 =>
          have heq : orbitTQ sl gens fuel st vs =
              orbitLoopTQ sl gens fuel st1 [s0] [s0] := by
            unfold orbitTQ
            rw [hm]
          rw [heq]
          have hs0 : s0 = canonVerts sl vs := makeFundamentalRegionSimplex_ok_val hm
          refine orbitLoopTQ_terminates sl gens S hcl fuel st1 [s0] [s0]
            (by simp) ?_ (by simp) ?_
          · intro x hx
            rw [List.mem_singleton] at hx
            subst hx
            rw [hs0]
            exact h0
          · simp only [List.length_singleton]
            omega

/-- Witness for C6 (amended): the orbit of the vertex `(0,)` under the
identity generator, confined to the singleton set, terminates with fuel 2. -/
theorem orbit_terminates_of_finite_closure_witness :
    (orbitTQ [2] [idGen] 2 emptyBuilder [[0]]).isSome = true :=
  orbit_terminates_of_finite_closure [2] [idGen] emptyBuilder [[0]] {[[0]]}
    (by decide)
    (fun s hs g hg => by
      rw [Finset.mem_singleton] at hs
      subst hs
      rw [List.mem_singleton] at hg
      subst hg
      decide)
    2 (by decide)

/-- `SimplexRelation.class_map` (`cell_complex.py`): simplex to frozen
equivalence class. -/
abbrev RelState : Type := List (Spx × Finset Spx)

/-- `SimplexRelation.__call__`: the class of a simplex, defaulting to the
singleton class of the simplex itself. -/
def relCall (rel : RelState) (s : Spx) : Finset Spx := (alookup rel s).getD {s}

/-- The `union` accumulation of `_unsafe_identify`, over the pre-call
class map. -/
def unionClasses (rel : RelState) (ss : List Spx) : Finset Spx :=
  ss.foldl (fun u t => u ∪ relCall rel t) ∅

/-- The assignment loop of `_unsafe_identify`: remap every GIVEN simplex
(and only those) to the joint class. -/
def assignAll (rel : RelState) (ss : List Spx) (u : Finset Spx) : RelState :=
  ss.foldl (fun r s => aupdate r s u) rel

/-- `SimplexRelation._unsafe_identify`. -/
def unsafeIdentify (rel : RelState) (ss : List Spx) : RelState :=
  assignAll rel ss (unionClasses rel ss)

/-- The length of the shortest row, zero when there are no rows — the
number of tuples produced by Python `zip(*rows)`. -/
def minRowLen : List (List Spx) → Nat
  | [] => 0
  | l :: rest => rest.foldl (fun m x => min m x.length) l.length

/-- `zip(*boundaries)`: the transposed columns. -/
def zipColumns (bds : List (List Spx)) : List (List Spx) :=
  (List.range (minRowLen bds)).map fun i => bds.map fun l => l.getD i []

/-- The boundary reads `[self.builder.boundary[simplex] for simplex in
simplices]`; a missing entry is Python's `KeyError` (`none`). -/
def lookupBoundaries (st : BuilderState) : List Spx → Option (List (List Spx))
  | [] => some []
  | s :: rest =>
      match alookup st.boundary s with
      | none => none
      | some bd =>
          match lookupBoundaries st rest with
          | none => none
          | some bs => some (bd :: bs)

/-- The column recursion `self.identify(*boundaries_i)` of
`SimplexRelation.identify`, sequential over the transposed columns. -/
def identifyCols (f : RelState → List Spx → Option RelState) :
    List (List Spx) → RelState → Option RelState
  | [], rel => some rel
  | c :: cs, rel =>
      match f rel c with
      | none => none
      | some rel1 => identifyCols f cs rel1

/-- `SimplexRelation.identify`, with fuel for the boundary recursion
(whose depth is the simplex dimension on builder-produced states):
merge the classes of the given simplices, then recursively identify the
positionally corresponding boundary faces. -/
def identifyF (st : BuilderState) : Nat → RelState → List Spx → Option RelState
  | 0, _, _ => none
  | fuel + 1, rel, ss =>
      match lookupBoundaries st ss with
      | none => none
      | some bds => identifyCols (identifyF st fuel) (zipColumns bds) (unsafeIdentify rel ss)

theorem relCall_aupdate_self (rel : RelState) (s : Spx) (u : Finset Spx) :
    relCall (aupdate rel s u) s = u := by
  simp [relCall, alookup_aupdate_self]

theorem relCall_aupdate_other (rel : RelState) (s t : Spx) (u : Finset Spx)
    (h : t ≠ s) : relCall (aupdate rel s u) t = relCall rel t := by
  simp [relCall, alookup_aupdate_other _ _ _ _ h]

theorem foldl_union_all_eq (rel : RelState) (s : Spx) :
    ∀ (ss : List Spx), ss ≠ [] → (∀ x ∈ ss, x = s) → ∀ u : Finset Spx,
      ss.foldl (fun acc t => acc ∪ relCall rel t) u = u ∪ relCall rel s := by
  intro ss
  induction ss with
  | nil => intro h; exact absurd rfl h
  | cons x rest ih =>
      intro _ hall u
      have hx : x = s := hall x (by simp)
      subst hx
      rw [List.foldl_cons]
      cases rest with
      | nil => rfl
      | cons y ys =>
          rw [ih (by simp) (fun z hz => hall z (by simp [hz])) (u ∪ relCall rel x)]
          rw [Finset.union_assoc, Finset.union_self]

theorem relCall_assignAll_ne (s t : Spx) (u : Finset Spx) (h : t ≠ s) :
    ∀ (ss : List Spx) (rel : RelState), (∀ x ∈ ss, x = s) →
      relCall (assignAll rel ss u) t = relCall rel t := by
  intro ss
  induction ss with
  | nil => intro rel _; rfl
  | cons x rest ih =>
      intro rel hall
      have hx : x = s := hall x (by simp)
      subst hx
      show relCall (assignAll (aupdate rel x u) rest u) t = relCall rel t
      rw [ih (aupdate rel x u) (fun z hz => hall z (by simp [hz]))]
      exact relCall_aupdate_other rel x t u h

theorem relCall_assignAll_eq (s : Spx) (u : Finset Spx) :
    ∀ (ss : List Spx) (rel : RelState), ss ≠ [] → (∀ x ∈ ss, x = s) →
      relCall (assignAll rel ss u) s = u := by
  intro ss
  induction ss with
  | nil => intro rel h; exact absurd rfl h
  | cons x rest ih =>
      intro rel _ hall
      have hx : x = s := hall x (by simp)
      subst hx
      show relCall (assignAll (aupdate rel x u) rest u) x = u
      cases rest with
      | nil => exact relCall_aupdate_self rel x u
      | cons y ys =>
          exact ih (aupdate rel x u) (by simp) fun z hz => hall z (by simp [hz])

theorem relCall_unsafeIdentify_all_eq (rel : RelState) (s : Spx) (ss : List Spx)
    (hne : ss ≠ []) (hall : ∀ x ∈ ss, x = s) :
    ∀ t, relCall (unsafeIdentify rel ss) t = relCall rel t := by
  intro t
  have hu : unionClasses rel ss = relCall rel s := by
    rw [unionClasses, foldl_union_all_eq rel s ss hne hall ∅, Finset.empty_union]
  by_cases hts : t = s
  · subst hts
    rw [unsafeIdentify, hu, relCall_assignAll_eq t (relCall rel t) ss rel hne hall]
  · rw [unsafeIdentify, hu, relCall_assignAll_ne s t (relCall rel s) hts ss rel hall]

theorem lookupBoundaries_const (st : BuilderState) (ro : List Spx) :
    ∀ (ss : List Spx), (∀ x ∈ ss, alookup st.boundary x = some ro) →
      lookupBoundaries st ss = some (ss.map fun _ => ro) := by
  intro ss
  induction ss with
  | nil => intro _; rfl
  | cons x rest ih =>
      intro hall
      rw [lookupBoundaries, hall x (by simp), ih fun z hz => hall z (by simp [hz])]
      rfl

theorem minRowLen_const (ro : List Spx) :
    ∀ (ss : List Spx), ss ≠ [] → minRowLen (ss.map fun _ => ro) = ro.length := by
  have haux : ∀ (l : List (List Spx)) (m : Nat), (∀ x ∈ l, x.length = m) →
      l.foldl (fun acc x => min acc x.length) m = m := by
    intro l
    induction l with
    | nil => intro m _; rfl
    | cons x rest ih =>
        intro m hall
        rw [List.foldl_cons, hall x (by simp), min_self]
        exact ih m fun z hz => hall z (by simp [hz])
  intro ss hne
  cases ss with
  | nil => exact absurd rfl hne
  | cons x rest =>
      show (rest.map fun _ => ro).foldl (fun acc x => min acc x.length) ro.length = ro.length
      refine haux _ _ ?_
      intro z hz
      rw [List.mem_map] at hz
      obtain ⟨_, _, rfl⟩ := hz
      rfl

theorem identifyCols_cons (f : RelState → List Spx → Option RelState)
    (c : List Spx) (cs : List (List Spx)) (rel : RelState) :
    identifyCols f (c :: cs) rel =
      match f rel c with
      | none => none
      | some rel1 => identifyCols f cs rel1 := rfl

theorem identifyF_succ_eq (st : BuilderState) (fuel : Nat) (rel : RelState)
    (ss : List Spx) (bds : List (List Spx))
    (h : lookupBoundaries st ss = some bds) :
    identifyF st (fuel + 1) rel ss =
      identifyCols (identifyF st fuel) (zipColumns bds) (unsafeIdentify rel ss) := by
  rw [identifyF, h]

theorem identify_all_eq_noop (st : BuilderState) :
    ∀ (fuel : Nat) (s : Spx) (rel : RelState) (ss : List Spx),
      Interned st s → s.length < fuel → ss ≠ [] → (∀ x ∈ ss, x = s) →
      ∃ rel2, identifyF st fuel rel ss = some rel2 ∧
        ∀ t, relCall rel2 t = relCall rel t := by
  intro fuel
  induction fuel with
  | zero =>
      intro s rel ss _ hlen
      omega
  | succ fuel ih =>
      intro s rel ss hint hlen hne hall
      have hbd : alookup st.boundary s = some (removeOneIter s) :=
        ((Interned_def st s).mp hint).2.2.1
      have hlb : lookupBoundaries st ss = some (ss.map fun _ => removeOneIter s) :=
        lookupBoundaries_const st (removeOneIter s) ss
          (fun x hx => by rw [hall x hx]; exact hbd)
      rw [identifyF_succ_eq st fuel rel ss _ hlb]
      have hcols : ∀ c ∈ zipColumns (ss.map fun _ => removeOneIter s),
          ∃ f, c = ss.map (fun _ => f) ∧ Interned st f ∧ f.length < fuel := by
        intro c hc
        rw [zipColumns, List.mem_map] at hc
        obtain ⟨i, hi, rfl⟩ := hc
        rw [List.mem_range, minRowLen_const (removeOneIter s) ss hne] at hi
        refine ⟨(removeOneIter s).getD i [], by rw [List.map_map]; rfl, ?_, ?_⟩
        · have hmem : (removeOneIter s).getD i [] ∈ removeOneIter s := by
            rw [List.getD_eq_getElem _ [] hi]
            exact List.getElem_mem hi
          exact ((Interned_def st s).mp hint).2.2.2 _ hmem
        · have hmem : (removeOneIter s).getD i [] ∈ removeOneIter s := by
            rw [List.getD_eq_getElem _ [] hi]
            exact List.getElem_mem hi
          have := length_lt_of_mem_removeOneIter hmem
          omega
      have hpres := relCall_unsafeIdentify_all_eq rel s ss hne hall
      have hloop : ∀ (cols : List (List Spx)) (rel0 : RelState),
          (∀ c ∈ cols, ∃ f, c = ss.map (fun _ => f) ∧ Interned st f ∧ f.length < fuel) →
          ∃ rel2, identifyCols (identifyF st fuel) cols rel0 = some rel2 ∧
            ∀ t, relCall rel2 t = relCall rel0 t := by
        intro cols
        induction cols with
        | nil => intro rel0 _; exact ⟨rel0, rfl, fun t => rfl⟩
        | cons c cs ihc =>
            intro rel0 hc
            obtain ⟨f, hcf, hintf, hlf⟩ := hc c (by simp)
            have hssne : ss.map (fun _ => f) ≠ [] := by
              intro hcon
              rw [List.map_eq_nil_iff] at hcon
              exact hne hcon
            obtain ⟨rel1, hr1, hp1⟩ := ih f rel0 (ss.map fun _ => f) hintf hlf hssne
              (fun x hx => by
                rw [List.mem_map] at hx
                obtain ⟨_, _, rfl⟩ := hx
                rfl)
            obtain ⟨rel2, hr2, hp2⟩ := ihc rel1 fun d hd => hc d (by simp [hd])
            refine ⟨rel2, ?_, fun t => (hp2 t).trans (hp1 t)⟩
            rw [identifyCols_cons, hcf, hr1]
            exact hr2
      obtain ⟨rel2, hr2, hp2⟩ :=
        hloop (zipColumns (ss.map fun _ => removeOneIter s)) (unsafeIdentify rel ss) hcols
      exact ⟨rel2, hr2, fun t => (hp2 t).trans (hpres t)⟩

theorem removeOneIter_singleton (x : Spx) (h : x.length = 1) :
    removeOneIter x = [[]] := by
  obtain ⟨v, rfl⟩ := List.length_eq_one.mp h
  rfl

theorem identify_vertices (st : BuilderState) (fuel : Nat) (rel : RelState)
    (ss : List Spx) (hne : ss ≠ [])
    (hall : ∀ x ∈ ss, Interned st x ∧ x.length = 1) (hfuel : 1 ≤ fuel) :
    ∃ rel2, identifyF st (fuel + 1) rel ss = some rel2 ∧
      ∀ t, relCall rel2 t = relCall (unsafeIdentify rel ss) t := by
  have hro : ∀ x ∈ ss, removeOneIter x = [[]] := fun x hx =>
    removeOneIter_singleton x (hall x hx).2
  have hlb : lookupBoundaries st ss = some (ss.map fun _ => ([[]] : List Spx)) := by
    refine lookupBoundaries_const st [[]] ss fun x hx => ?_
    have hb := ((Interned_def st x).mp (hall x hx).1).2.2.1
    rw [hro x hx] at hb
    exact hb
  rw [identifyF_succ_eq st fuel rel ss _ hlb]
  have hzip : zipColumns (ss.map fun _ => ([[]] : List Spx)) =
      [ss.map fun _ => ([] : Spx)] := by
    rw [zipColumns, minRowLen_const [[]] ss hne]
    show (List.range 1).map _ = _
    rw [show List.range 1 = [0] from rfl]
    simp only [List.map_cons, List.map_nil, List.map_map]
    rfl
  rw [hzip, identifyCols_cons]
  obtain ⟨x0, hx0⟩ := List.exists_mem_of_ne_nil ss hne
  have hint_empty : Interned st ([] : Spx) := by
    refine ((Interned_def st x0).mp (hall x0 hx0).1).2.2.2 [] ?_
    rw [hro x0 hx0]
    simp
  have hcolne : (ss.map fun _ => ([] : Spx)) ≠ [] := by
    intro hcon
    rw [List.map_eq_nil_iff] at hcon
    exact hne hcon
  obtain ⟨relA, hrA, hpA⟩ := identify_all_eq_noop st fuel [] (unsafeIdentify rel ss)
    (ss.map fun _ => []) hint_empty (by simpa using hfuel) hcolne
    (by
      intro z hz
      rw [List.mem_map] at hz
      obtain ⟨_, _, rfl⟩ := hz
      rfl)
  rw [hrA]
  exact ⟨relA, rfl, hpA⟩

theorem relCall_unsafeIdentify_pair (rel : RelState) (x y : Spx) (hxy : x ≠ y) :
    relCall (unsafeIdentify rel [x, y]) x = ∅ ∪ relCall rel x ∪ relCall rel y ∧
    relCall (unsafeIdentify rel [x, y]) y = ∅ ∪ relCall rel x ∪ relCall rel y ∧
    ∀ t, t ≠ x → t ≠ y → relCall (unsafeIdentify rel [x, y]) t = relCall rel t := by
  have e1 : unsafeIdentify rel [x, y] =
      aupdate (aupdate rel x (∅ ∪ relCall rel x ∪ relCall rel y)) y
        (∅ ∪ relCall rel x ∪ relCall rel y) := rfl
  refine ⟨?_, ?_, ?_⟩
  · rw [e1, relCall_aupdate_other _ _ _ _ hxy, relCall_aupdate_self]
  · rw [e1, relCall_aupdate_self]
  · intro t htx hty
    rw [e1, relCall_aupdate_other _ _ _ _ hty, relCall_aupdate_other _ _ _ _ htx]

theorem relCall_unsafeIdentify_triple (rel : RelState) (x y z : Spx)
    (hxy : x ≠ y) (hxz : x ≠ z) :
    relCall (unsafeIdentify rel [x, y, z]) x =
      ∅ ∪ relCall rel x ∪ relCall rel y ∪ relCall rel z ∧
    relCall (unsafeIdentify rel [x, y, z]) y =
      ∅ ∪ relCall rel x ∪ relCall rel y ∪ relCall rel z ∧
    relCall (unsafeIdentify rel [x, y, z]) z =
      ∅ ∪ relCall rel x ∪ relCall rel y ∪ relCall rel z := by
  have e1 : unsafeIdentify rel [x, y, z] =
      aupdate (aupdate (aupdate rel x
        (∅ ∪ relCall rel x ∪ relCall rel y ∪ relCall rel z)) y
        (∅ ∪ relCall rel x ∪ relCall rel y ∪ relCall rel z)) z
        (∅ ∪ relCall rel x ∪ relCall rel y ∪ relCall rel z) := rfl
  refine ⟨?_, ?_, ?_⟩
  · rw [e1, relCall_aupdate_other _ _ _ _ hxz, relCall_aupdate_other _ _ _ _ hxy,
      relCall_aupdate_self]
  · by_cases hyz : y = z
    · subst hyz
      rw [e1, relCall_aupdate_self]
    · rw [e1, relCall_aupdate_other _ _ _ _ hyz, relCall_aupdate_self]
  · rw [e1, relCall_aupdate_self]

/-- Claim C3 (amended): on a builder, `identify(s, s)` of an interned
simplex leaves the equivalence class of every simplex unchanged; and for
three distinct interned vertex simplices `a`, `b`, `c`, after
`identify(a, b)` then `identify(b, c)`, both `b` and `c` carry the same
class as after the single call `identify(a, b, c)` (the union of the
three prior classes), while `a` retains only the class from
`identify(a, b)` (the union of `a`'s and `b`'s prior classes) — only the
simplices passed to `identify` are remapped, so the chained calls do not
equal the direct three-way call on `a`. -/
theorem identify_self_noop_and_chain (st : BuilderState) :
    (∀ (fuel : Nat) (rel : RelState) (s : Spx), Interned st s → s.length < fuel →
      ∃ rel2, identifyF st fuel rel [s, s] = some rel2 ∧
        ∀ t, relCall rel2 t = relCall rel t) ∧
    (∀ (fuel : Nat) (rel : RelState) (a b c : Spx),
      Interned st a → Interned st b → Interned st c →
      a.length = 1 → b.length = 1 → c.length = 1 →
      a ≠ b → a ≠ c → b ≠ c → 1 ≤ fuel →
      ∃ rel1 rel2 relD,
        identifyF st (fuel + 1) rel [a, b] = some rel1 ∧
        identifyF st (fuel + 1) rel1 [b, c] = some rel2 ∧
        identifyF st (fuel + 1) rel [a, b, c] = some relD ∧
        relCall rel2 b = relCall relD b ∧
        relCall rel2 c = relCall relD c ∧
        relCall rel2 a = relCall rel a ∪ relCall rel b ∧
        relCall relD a = relCall rel a ∪ relCall rel b ∪ relCall rel c) := by
  constructor
  · intro fuel rel s hint hlen
    refine identify_all_eq_noop st fuel s rel [s, s] hint hlen (by simp) ?_
    intro x hx
    rcases List.mem_cons.mp hx with rfl | hx'
    · rfl
    · rcases List.mem_cons.mp hx' with rfl | hx''
      · rfl
      · simp at hx''
  · intro fuel rel a b c hia hib hic ha1 hb1 hc1 hab hac hbc hfuel
    have hvab : ∀ x ∈ [a, b], Interned st x ∧ x.length = 1 := by
      intro x hx
      rcases List.mem_cons.mp hx with rfl | hx'
      · exact ⟨hia, ha1⟩
      · rcases List.mem_cons.mp hx' with rfl | hx''
        · exact ⟨hib, hb1⟩
        · simp at hx''
    obtain ⟨rel1, h1, hp1⟩ := identify_vertices st fuel rel [a, b] (by simp) hvab hfuel
    have hvbc : ∀ x ∈ [b, c], Interned st x ∧ x.length = 1 := by
      intro x hx
      rcases List.mem_cons.mp hx with rfl | hx'
      · exact ⟨hib, hb1⟩
      · rcases List.mem_cons.mp hx' with rfl | hx''
        · exact ⟨hic, hc1⟩
        · simp at hx''
    obtain ⟨rel2, h2, hp2⟩ := identify_vertices st fuel rel1 [b, c] (by simp) hvbc hfuel
    have hvabc : ∀ x ∈ [a, b, c], Interned st x ∧ x.length = 1 := by
      intro x hx
      rcases List.mem_cons.mp hx with rfl | hx'
      · exact ⟨hia, ha1⟩
      · rcases List.mem_cons.mp hx' with rfl | hx''
        · exact ⟨hib, hb1⟩
        · rcases List.mem_cons.mp hx'' with rfl | hx3
          · exact ⟨hic, hc1⟩
          · simp at hx3
    obtain ⟨relD, hD, hpD⟩ := identify_vertices st fuel rel [a, b, c] (by simp) hvabc hfuel
    obtain ⟨hpab_a, hpab_b, hpab_o⟩ := relCall_unsafeIdentify_pair rel a b hab
    obtain ⟨hpbc_b, hpbc_c, hpbc_o⟩ := relCall_unsafeIdentify_pair rel1 b c hbc
    obtain ⟨hpD_a, hpD_b, hpD_c⟩ := relCall_unsafeIdentify_triple rel a b c hab hac
    have hr1a : relCall rel1 a = ∅ ∪ relCall rel a ∪ relCall rel b := by
      rw [hp1 a, hpab_a]
    have hr1b : relCall rel1 b = ∅ ∪ relCall rel a ∪ relCall rel b := by
      rw [hp1 b, hpab_b]
    have hr1c : relCall rel1 c = relCall rel c := by
      rw [hp1 c, hpab_o c hac.symm hbc.symm]
    refine ⟨rel1, rel2, relD, h1, h2, hD, ?_, ?_, ?_, ?_⟩
    · rw [hp2 b, hpbc_b, hpD b, hpD_b, hr1b, hr1c]
      simp [Finset.union_assoc]
    · rw [hp2 c, hpbc_c, hpD c, hpD_c, hr1b, hr1c]
      simp [Finset.union_assoc]
    · rw [hp2 a, hpbc_o a hab hac, hr1a]
      simp
    · rw [hpD a, hpD_a]
      simp

/-- Executable check of `Interned`, structural in the vertex count so that
concrete witnesses can evaluate it. -/
def InternedBF (st : BuilderState) : Nat → Spx → Bool
  | fuel, vs =>
      decide (alookup st.sortedSimplices (sortKey vs) = some vs) &&
      decide (vs ∈ simplicesAt st vs.length) &&
      decide (alookup st.boundary vs = some (removeOneIter vs)) &&
      match fuel with
      | 0 => decide (removeOneIter vs = [])
      | fuel' + 1 => (removeOneIter vs).all fun f => InternedBF st fuel' f

theorem InternedBF_iff : ∀ (fuel : Nat) (vs : Spx), vs.length = fuel →
    ∀ st : BuilderState, (InternedBF st fuel vs = true ↔ Interned st vs) := by
  intro fuel
  induction fuel with
  | zero =>
      intro vs hn st
      have hnil : vs = [] := List.length_eq_zero.mp hn
      subst hnil
      rw [InternedBF, Interned_def]
      simp only [Bool.and_eq_true, decide_eq_true_eq]
      constructor
      · rintro ⟨⟨⟨h1, h2⟩, h3⟩, _⟩
        refine ⟨h1, h2, h3, fun f hf => ?_⟩
        simp [removeOneIter] at hf
      · rintro ⟨h1, h2, h3, _⟩
        refine ⟨⟨⟨h1, h2⟩, h3⟩, ?_⟩
        simp [removeOneIter]
  | succ n ih =>
      intro vs hn st
      rw [InternedBF, Interned_def]
      simp only [Bool.and_eq_true, decide_eq_true_eq, List.all_eq_true]
      constructor
      · rintro ⟨⟨⟨h1, h2⟩, h3⟩, h4⟩
        refine ⟨h1, h2, h3, fun f hf => ?_⟩
        have hlen := length_of_mem_removeOneIter hf
        exact (ih f (by omega) st).mp (h4 f hf)
      · rintro ⟨h1, h2, h3, h4⟩
        refine ⟨⟨⟨h1, h2⟩, h3⟩, fun f hf => ?_⟩
        have hlen := length_of_mem_removeOneIter hf
        exact (ih f (by omega) st).mpr (h4 f hf)

theorem Interned_of_internedB (st : BuilderState) (vs : Spx)
    (h : InternedBF st vs.length vs = true) : Interned st vs :=
  (InternedBF_iff vs.length vs rfl st).mp h

/-- The builder holding the three vertices `(0,)`, `(1,)`, `(2,)` of
`BoxBuilder(2)`. -/
def relWitnessSt : BuilderState :=
  (addSimplex [2] (addSimplex [2] (addSimplex [2] emptyBuilder [[0]]).2 [[1]]).2 [[2]]).2

/-- Witness for C3 at the concrete builder of three vertices:
`identify((0,), (0,))` leaves the class of `((0,),)` unchanged. -/
theorem identify_self_noop_and_chain_witness :
    relCall ((identifyF relWitnessSt 2 [] [[[0]], [[0]]]).getD []) [[0]] =
      relCall [] [[0]] := by
  obtain ⟨rel2, hr, hp⟩ := (identify_self_noop_and_chain relWitnessSt).1 2 [] [[0]]
    (Interned_of_internedB _ _ (by decide)) (by decide)
  rw [hr]
  exact hp [[0]]

/-- The relation after `identify(((0,),), ((1,),))` on the fresh relation. -/
def chainRel1 : RelState := (identifyF relWitnessSt 2 [] [[[0]], [[1]]]).getD []

/-- The relation after chaining `identify(((1,),), ((2,),))`. -/
def chainRel2 : RelState := (identifyF relWitnessSt 2 chainRel1 [[[1]], [[2]]]).getD []

/-- The relation after the single call `identify(a, b, c)`. -/
def directRel : RelState := (identifyF relWitnessSt 2 [] [[[0]], [[1]], [[2]]]).getD []

/-- Counterexample to C3 as stated: on the three distinct vertices `a, b, c`
of `BoxBuilder(2)`, `identify(a, b)` followed by `identify(b, c)` leaves
`a` with class `{a, b}`, while the single call `identify(a, b, c)` gives
`a` the class `{a, b, c}` — only the simplices passed to an `identify`
call are remapped, so `a` keeps a stale class after the chained calls. -/
theorem identify_chain_counterexample :
    (identifyF relWitnessSt 2 [] [[[0]], [[1]]]).isSome = true ∧
    (identifyF relWitnessSt 2 chainRel1 [[[1]], [[2]]]).isSome = true ∧
    (identifyF relWitnessSt 2 [] [[[0]], [[1]], [[2]]]).isSome = true ∧
    relCall chainRel2 [[0]] ≠ relCall directRel [[0]] :=
  ⟨rfl, rfl, rfl, by decide⟩

/-- All insertions of an element into a list, the generator step of the
permutation enumeration (Sage's `Permutations(n)` is an external iteration
utility; only the set of permutations matters here). -/
def insertEverywhere {α : Type} (x : α) : List α → List (List α)
  | [] => [[x]]
  | y :: ys => (x :: y :: ys) :: (insertEverywhere x ys).map (y :: ·)

/-- All permutations of a list. -/
def permsOf {α : Type} : List α → List (List α)
  | [] => [[]]
  | x :: xs => (permsOf xs).flatMap (insertEverywhere x)

/-- The simplices of `UnitCubeTriangulation(d).simplex_iter`
(`cube_triangulation.py`): for each permutation `p` of `1..d`, the chain
of vertices obtained by zeroing the coordinates `j - 1` for `j` in `p[i:]`. -/
def unitCubeSimplices (d : Nat) : List (List Vtx) :=
  (permsOf (List.range' 1 d)).map fun p =>
    (List.range (d + 1)).map fun i =>
      (List.range d).map fun k => if (k + 1) ∈ p.drop i then (0 : Int) else 1

/-- The ordered `i < j` vertex pairs of a simplex. -/
def allPairs : List Vtx → List (Vtx × Vtx)
  | [] => []
  | x :: xs => xs.map (fun y => (x, y)) ++ allPairs xs

/-- `TriangulationEdgeFinder.unit_edges`
(`triangulation_edge_finder.py`): the vertex pairs of the reference
triangulation of the unit hypercube, routed through
`CubeTriangulation(*cartesian_product([[0,1]]*d))` — whose
lexicographically ordered input makes its vertex map the identity and its
per-simplex `sort_key` ordering the lexicographic one. -/
def unitEdges (d : Nat) : List (Vtx × Vtx) :=
  ((unitCubeSimplices d).map sortKey).flatMap allPairs

/-- A Sage `DiGraph`: vertex and directed-edge collections (the graph
library itself is an external collaborator). -/
structure DG where
  verts : List Vtx
  edges : List (Vtx × Vtx)
  deriving DecidableEq

/-- `EdgeBuilder.edge_graph` (`edge_accumulator.py`): a vertex per
1-simplex, a directed edge per 2-simplex (`add_edge` also records the
endpoints as vertices). -/
def edgeGraph (st : BuilderState) : DG :=
  { verts := (simplicesAt st 1).map (fun s => s.getD 0 []) ++
      (simplicesAt st 2).flatMap fun s => [s.getD 0 [], s.getD 1 []],
    edges := (simplicesAt st 2).map fun s => (s.getD 0 [], s.getD 1 []) }

/-- `CubeFilter.contains` (`cube_filter.py`). -/
def cubeContains (sets : List (List Int)) (v : Vtx) : Bool :=
  (List.range sets.length).all fun i => (sets.getD i []).contains (v.getD i 0)

/-- The finder's `unit_graph`: the subgraph of the edge graph induced on
the vertices kept by `CubeFilter(*([[0, 1]] * dimension))`. -/
def unitGraphOf (d : Nat) (g : DG) : DG :=
  { verts := g.verts.filter (cubeContains (List.replicate d [0, 1])),
    edges := g.edges.filter fun e =>
      (g.verts.filter (cubeContains (List.replicate d [0, 1]))).contains e.1 &&
      (g.verts.filter (cubeContains (List.replicate d [0, 1]))).contains e.2 }

/-- `TriangulationEdgeFinder.triangulation_edges`: the unit edges not yet
present, in either direction, in the unit graph. -/
def triangulationEdges (sl : List Nat) (st : BuilderState) : List (Vtx × Vtx) :=
  (unitEdges sl.length).filter fun e =>
    !((unitGraphOf sl.length (edgeGraph st)).edges.contains e ||
      (unitGraphOf sl.length (edgeGraph st)).edges.contains (e.2, e.1))

/-- The vertices with no incoming edge from a still-present vertex. -/
def graphSources (verts : List Vtx) (edges : List (Vtx × Vtx)) : List Vtx :=
  verts.filter fun v => !(edges.any fun e => e.2 == v && verts.contains e.1)

/-- Kahn elimination: the meaning of the external
`DiGraph.is_directed_acyclic`. -/
def acyclicGo : Nat → List Vtx → List (Vtx × Vtx) → Bool
  | _, [], _ => true
  | 0, _ :: _, _ => false
  | fuel + 1, verts, edges =>
      if (graphSources verts edges).isEmpty then false
      else acyclicGo fuel (verts.filter fun v => !((graphSources verts edges).contains v)) edges

/-- Directed acyclicity of a graph. -/
def isAcyclic (g : DG) : Bool := acyclicGo g.verts.length g.verts g.edges

/-- Sage `add_edge` on a graph copy: records the edge and its endpoints. -/
def addEdgeDG (g : DG) (a b : Vtx) : DG :=
  { verts := g.verts ++ [a, b], edges := g.edges ++ [(a, b)] }

/-- The `for simplex in orbit: self.add_simplex(*simplex)` loop of
`add_simplex_orbit`. -/
def addOrbitList (sl : List Nat) : List Spx → BuilderState → Except Err Unit × BuilderState
  | [], st => (Except.ok (), st)
  | s :: rest, st =>
      match addSimplex sl st s with
      | (Except.error e, st1) => (Except.error e, st1)
      | (Except.ok _, st1) => addOrbitList sl rest st1

/-- `GroupBoxEdgeBuilder.add_simplex_orbit` for an edge `(v0, v1)`. -/
def addSimplexOrbit (sl : List Nat) (gens : List Gen) (ofuel : Nat)
    (st : BuilderState) (v0 v1 : Vtx) : Option (Except Err Unit × BuilderState) :=
  match orbitGB sl gens ofuel st [v0, v1] with
  | none => none
  | some (Except.error e, st1) => some (Except.error e, st1)
  | some (Except.ok O, st1) => some (addOrbitList sl O st1)

/-- One orientation attempt of `edge_orientations_iter`: the cheap
acyclicity pre-filter on the orientation graph plus the committed edge,
then the authoritative `add_simplex_orbit` on a builder copy —
`VertexOrderError` prunes the branch, a failed assertion propagates and
aborts the whole enumeration, success recurses into the new state. -/
def edgeBranch (sl : List Nat) (gens : List Gen) (ofuel : Nat)
    (recurse : BuilderState → List BuilderState × Option Err)
    (st : BuilderState) (a b : Vtx) : List BuilderState × Option Err :=
  if isAcyclic (addEdgeDG (unitGraphOf sl.length (edgeGraph st)) a b) then
    match addSimplexOrbit sl gens ofuel st a b with
    | none => ([], none)
    | some (Except.error (Err.vertexOrder _ _), _) => ([], none)
    | some (Except.error Err.assertionFailed, _) => ([], some Err.assertionFailed)
    | some (Except.ok _, st1) => recurse st1
  else ([], none)

/-- `TriangulationEdgeFinder.edge_orientations_iter`: with no remaining
triangulation edge the state itself is yielded; otherwise the head
remaining edge (`next(iter(...))` determinized) is tried in both
orientations, concatenating the yields; the pair carries a propagating
failed assertion, which cuts off everything after it. -/
def edgeOrientationsIter (sl : List Nat) (gens : List Gen) :
    Nat → Nat → BuilderState → List BuilderState × Option Err
  | 0, _, _ => ([], none)
  | fuel + 1, ofuel, st =>
      match triangulationEdges sl st with
      | [] => ([st], none)
      | (v0, v1) :: _ =>
          match edgeBranch sl gens ofuel (edgeOrientationsIter sl gens fuel ofuel) st v0 v1 with
          | (l1, some e) => (l1, some e)
          | (l1, none) =>
              match edgeBranch sl gens ofuel
                  (edgeOrientationsIter sl gens fuel ofuel) st v1 v0 with
              | (l2, e2) => (l1 ++ l2, e2)

theorem mem_edgeBranch (sl : List Nat) (gens : List Gen) (ofuel : Nat)
    (recurse : BuilderState → List BuilderState × Option Err)
    (st : BuilderState) (a b : Vtx) (z : BuilderState)
    (h : z ∈ (edgeBranch sl gens ofuel recurse st a b).1) :
    ∃ st1, z ∈ (recurse st1).1 := by
  unfold edgeBranch at h
  split at h
  · split at h
    · simp at h
    · simp at h
    · simp at h
    · next st1 heq => exact ⟨_, h⟩
  · simp at h

/-- Claim C4 (amended): every state yielded by `edge_orientations_iter`
has an empty `triangulation_edges` set; its unit-cube orientation graph
need not be acyclic. -/
theorem edge_orientations_terminal (sl : List Nat) (gens : List Gen) :
    ∀ (fuel ofuel : Nat) (st z : BuilderState),
      z ∈ (edgeOrientationsIter sl gens fuel ofuel st).1 →
      triangulationEdges sl z = [] := by
  intro fuel
  induction fuel with
  | zero =>
      intro ofuel st z hz
      simp [edgeOrientationsIter] at hz
  | succ fuel ih =>
      intro ofuel st z hz
      rw [edgeOrientationsIter] at hz
      cases hte : triangulationEdges sl st with
      | nil =>
          rw [hte] at hz
          simp at hz
          rw [hz]
          exact hte
      | cons e rest =>
          obtain ⟨v0, v1⟩ := e
          rw [hte] at hz
          dsimp only at hz
          cases hb1 : edgeBranch sl gens ofuel
              (edgeOrientationsIter sl gens fuel ofuel) st v0 v1 with
          | mk l1 e1 =>
              rw [hb1] at hz
              cases e1 with
              | some e =>
                  obtain ⟨st1, hst1⟩ :=
                    mem_edgeBranch sl gens ofuel _ st v0 v1 z (by rw [hb1]; exact hz)
                  exact ih ofuel st1 z hst1
              | none =>
                  cases hb2 : edgeBranch sl gens ofuel
                      (edgeOrientationsIter sl gens fuel ofuel) st v1 v0 with
                  | mk l2 e2 =>
                      rw [hb2] at hz
                      rcases List.mem_append.mp hz with hz1 | hz2
                      · obtain ⟨st1, hst1⟩ :=
                          mem_edgeBranch sl gens ofuel _ st v0 v1 z (by rw [hb1]; exact hz1)
                        exact ih ofuel st1 z hst1
                      · obtain ⟨st1, hst1⟩ :=
                          mem_edgeBranch sl gens ofuel _ st v1 v0 z (by rw [hb2]; exact hz2)
                        exact ih ofuel st1 z hst1

/-- The builder holding the five unit-square edges oriented around the
cycle `(0,0) → (1,0) → (1,1) → (0,0)` plus `(0,0) → (0,1) → (1,1)` in
`BoxEdgeBuilder(1, 1)`. -/
def cycWitnessSt : BuilderState :=
  (addOrbitList [1, 1]
    [[[0, 0], [1, 0]], [[1, 0], [1, 1]], [[1, 1], [0, 0]],
     [[0, 0], [0, 1]], [[0, 1], [1, 1]]] emptyBuilder).2

set_option maxHeartbeats 2000000 in
/-- Counterexample to C4 as stated: on the builder whose unit graph
already covers every unit edge but contains the directed cycle
`(0,0) → (1,0) → (1,1) → (0,0)`, `edge_orientations_iter` immediately
yields the state itself (no remaining ambiguous edge), yet the yielded
state's orientation graph is not acyclic — no acyclicity check guards the
base case. -/
theorem edge_orientations_cyclic_terminal :
    (edgeOrientationsIter [1, 1] [] 1 1 cycWitnessSt).1 = [cycWitnessSt] ∧
    isAcyclic (unitGraphOf 2 (edgeGraph cycWitnessSt)) = false := by
  constructor
  · decide
  · decide

set_option maxHeartbeats 2000000 in
/-- Witness for C4 (amended) at the concrete yielded state. -/
theorem edge_orientations_terminal_witness :
    triangulationEdges [1, 1] cycWitnessSt = [] :=
  edge_orientations_terminal [1, 1] [] 1 1 cycWitnessSt cycWitnessSt (by decide)
